import Mathlib

/-!
# Format registry and detection (`image_size/image_meta.go`)

A shallow embedding of the format registry of the image-processing gateway:
`matchMagic`, `RegisterFormat`, `asReader` and `DecodeMeta`, together with the
part of the Go standard library's `bufio.Reader` that `DecodeMeta` drives
(`NewReader`, `Peek`, `fill`).

Go strings and byte slices are lists of bytes.  A Go run-time panic (an index
out of range) is the value `none`.
-/

namespace ImageSize

/-- A Go `byte`. -/
abbrev Byte := Fin 256

/-- The wildcard byte of a magic pattern, the character `?`. -/
def wildcard : Byte := ⟨'?'.toNat, by decide⟩

/-- The body of the loop `for i, c := range b` of `matchMagic`, entered at
index `i` with the bytes of `b` from `i` on.  `magic[i]` is an unchecked index
in the source: where it is out of range the Go program panics (`none`). -/
def matchMagic.loop (magic : List Byte) : Nat → List Byte → Option Bool
  | _, [] => some true
  | i, c :: rest =>
    match magic[i]? with
    | none => none
    | some m =>
      if m != c && m != wildcard then some false
      else matchMagic.loop magic (i + 1) rest

/-- The function `matchMagic(magic string, b []byte) bool`. -/
def matchMagic (magic : List Byte) (b : List Byte) : Option Bool :=
  if magic.length != b.length then some false
  else matchMagic.loop magic 0 b

/-- Pointwise agreement of a pattern with a byte sequence: equal lengths, and at
every index the pattern byte equals the data byte or is the wildcard. -/
def Agrees (magic b : List Byte) : Prop :=
  magic.length = b.length ∧
    ∀ i, i < b.length → magic[i]? = b[i]? ∨ magic[i]? = some wildcard

/-- Go `error` values that occur in format detection. -/
inductive GoError
  | ErrFormat
  | EOF
  | ErrBufferFull
  | other (msg : String)
deriving DecidableEq, Repr

/-- The method `Error()` of an error value: its message.  `ErrFormat` is
`errors.New("unknown image format")`. -/
def GoError.Error : GoError → String
  | .ErrFormat => "unknown image format"
  | .EOF => "EOF"
  | .ErrBufferFull => "bufio: buffer full"
  | .other msg => msg

/-- The struct `Meta`. -/
structure Meta where
  Format : String
  Width : Int
  Height : Int
deriving DecidableEq, Repr

/-- A `*bufio.Reader` of the Go standard library over an in-memory source (one
whose `Read` delivers every requested byte it still holds, as `bytes.Reader`
does).  `buf` is the buffered unread data `b.buf[b.r:b.w]`, `size` is the
capacity `len(b.buf)`, and `rd` is what the underlying reader `b.rd` has not
delivered yet. -/
structure BufReader where
  buf : List Byte
  size : Nat
  rd : List Byte
deriving DecidableEq, Repr

/-- The bytes a reader has still to deliver, in order: the read position of the
stream is the head of this list. -/
def BufReader.unread (b : BufReader) : List Byte := b.buf ++ b.rd

/-- The constant `defaultBufSize` of package `bufio`. -/
def defaultBufSize : Nat := 4096

/-- The function `bufio.NewReader(rd)`: an empty buffer of the default size. -/
def NewReader (rd : List Byte) : BufReader :=
  { buf := [], size := defaultBufSize, rd := rd }

/-- The method `fill` of `bufio.Reader`, called with a buffer that is not full:
one `Read` of the underlying source into the free part of the buffer. -/
def BufReader.fill (b : BufReader) : BufReader :=
  let free := b.size - b.buf.length
  { b with buf := b.buf ++ b.rd.take free, rd := b.rd.drop free }

/-- The method `Peek(n)` of `bufio.Reader`, for `n ≥ 0`: the returned bytes, the
returned error (`none` is `nil`) and the reader afterwards.  The source loops
`fill` while fewer than `n` bytes are buffered, the buffer is not full and no
read error occurred; over an in-memory source the first `fill` already
buffers everything that fits, and a second one only meets `io.EOF`. -/
def BufReader.Peek (b : BufReader) (n : Nat) : List Byte × Option GoError × BufReader :=
  let b1 := if b.buf.length < n ∧ b.buf.length < b.size then b.fill else b
  if n > b1.size then (b1.buf, some .ErrBufferFull, b1)
  else if b1.buf.length < n then (b1.buf, some .EOF, b1)
  else (b1.buf.take n, none, b1)

/-- The method `Read(p)` of `bufio.Reader` for a destination of `n = len(p)`
bytes: the bytes copied into `p`, the error, and the reader afterwards.  An
empty destination reads nothing.  With an empty buffer a large read goes
straight to the source and a small one fills the buffer once; buffered data
is handed out without touching the source. -/
def BufReader.Read (b : BufReader) (n : Nat) : List Byte × Option GoError × BufReader :=
  if n = 0 then ([], none, b)
  else
    match b.buf with
    | [] =>
      if b.rd = [] then ([], some .EOF, b)
      else if n ≥ b.size then (b.rd.take n, none, { b with rd := b.rd.drop n })
      else
        let b1 : BufReader := { b with buf := b.rd.take b.size, rd := b.rd.drop b.size }
        (b1.buf.take n, none, { b1 with buf := b1.buf.drop n })
    | _ :: _ => (b.buf.take n, none, { b with buf := b.buf.drop n })

/-- What a decoder returns: the pair `(*Meta, error)`, `none` being `nil`. -/
abbrev Ret := Option Meta × Option GoError

/-- The struct `format`: a magic pattern and the decoder
`func(io.Reader) (*Meta, error)`, which acts on the reader handed to it. -/
structure format where
  magic : List Byte
  decodeMeta : BufReader → Ret × BufReader

/-- The package variable `atomicFormats`, an `atomic.Value`: `none` until the
first `Store`. -/
structure Globals where
  atomicFormats : Option (List format)

/-- The statement `formats, _ := atomicFormats.Load().([]format)`: the stored
table, or the nil slice when nothing was stored. -/
def Globals.Load (g : Globals) : List format :=
  match g.atomicFormats with
  | none => []
  | some formats => formats

/-- The function `RegisterFormat(magic, decodeMeta)`: stores
`append(formats, format{magic, decodeMeta})`. -/
def RegisterFormat (g : Globals) (magic : List Byte)
    (decodeMeta : BufReader → Ret × BufReader) : Globals :=
  { atomicFormats := some (g.Load ++ [{ magic := magic, decodeMeta := decodeMeta }]) }

/-- The `io.Reader` handed to `DecodeMeta`: either a value that offers `Peek`
(a buffered reader of the caller), or an in-memory stream that does not, given
by its unread bytes. -/
inductive Input
  | peeker (rr : BufReader)
  | plain (src : List Byte)

/-- The function `asReader(r)`. -/
def asReader : Input → BufReader
  | .peeker rr => rr
  | .plain src => NewReader src

/-- What a run of `DecodeMeta` leaves behind: the returned pair, the reader
`rr` when it returns, and a record of the decoder calls made, each with the
index of its entry in the table and the reader as it was handed over. -/
structure Outcome where
  ret : Ret
  rr : BufReader
  calls : List (Nat × BufReader)
deriving DecidableEq, Repr

/-- The loop `for _, f := range formats` of `DecodeMeta`, at the entry of
index `k`, followed by the final `return nil, ErrFormat`.  The result is `none`
where the Go program panics. -/
def DecodeMeta.loop : List format → Nat → BufReader → Option Outcome
  | [], _, rr => some { ret := (none, some .ErrFormat), rr := rr, calls := [] }
  | f :: rest, k, rr =>
    match rr.Peek f.magic.length with
    | (_, some _, rr1) => DecodeMeta.loop rest (k + 1) rr1
    | (b, none, rr1) =>
      match matchMagic f.magic b with
      | none => none
      | some true =>
        let out := f.decodeMeta rr1
        some { ret := out.1, rr := out.2, calls := [(k, rr1)] }
      | some false => DecodeMeta.loop rest (k + 1) rr1

/-- The function `DecodeMeta(r)`, with the package state passed through. -/
def DecodeMeta (g : Globals) (r : Input) : Globals × Option Outcome :=
  (g, DecodeMeta.loop g.Load 0 (asReader r))

/-- The stream with unread bytes `s` leads with the pattern `magic`: it holds at
least `len(magic)` bytes and the pattern agrees with the first `len(magic)` of
them. -/
def Leads (s : List Byte) (magic : List Byte) : Prop :=
  magic.length ≤ s.length ∧ Agrees magic (s.take magic.length)

/-- The entry `f` is within reach of the reader `rr`: its pattern is no longer
than the reader's buffer, and the reader's unread bytes lead with it. -/
def Hit (rr : BufReader) (f : format) : Prop :=
  f.magic.length ≤ rr.size ∧ Leads rr.unread f.magic

instance (magic b : List Byte) : Decidable (Agrees magic b) := by
  unfold Agrees; infer_instance

instance (s magic : List Byte) : Decidable (Leads s magic) := by
  unfold Leads; infer_instance

instance (rr : BufReader) (f : format) : Decidable (Hit rr f) := by
  unfold Hit; infer_instance

/-- The caller's view of an input: the bytes it has still to deliver. -/
def Input.unread : Input → List Byte
  | .peeker rr => rr.unread
  | .plain src => src

/-- The caller's stream once `DecodeMeta` has returned leaving the reader
`rr`: for an input with `Peek` it is `rr` itself, for a plain input it is the
source underneath the buffered reader that `asReader` made. -/
def Input.after (r : Input) (rr : BufReader) : List Byte :=
  match r with
  | .peeker _ => rr.unread
  | .plain _ => rr.rd

/-- A reader that `DecodeMeta` reaches from `rr` by peeking: the same unread
bytes, the same capacity, and a buffer within capacity if it was so before. -/
def Peeked (rr st : BufReader) : Prop :=
  st.unread = rr.unread ∧ st.size = rr.size ∧ (rr.buf.length ≤ rr.size → st.buf.length ≤ rr.size)

/-- An operation on the registry. -/
inductive Op
  | register (magic : List Byte) (decodeMeta : BufReader → Ret × BufReader)
  | decode (r : Input)

/-- The package state after one operation. -/
def step (g : Globals) : Op → Globals
  | .register magic decodeMeta => RegisterFormat g magic decodeMeta
  | .decode r => (DecodeMeta g r).1

/-- The package state after a sequence of operations. -/
def run (g : Globals) (ops : List Op) : Globals := ops.foldl step g

/-! ### Sample data -/

/-- The pattern of JPEG files, `\xff\xd8`. -/
def jpegMagic : List Byte := [255, 216]

/-- The pattern of GIF files, `GIF8?a`. -/
def gifMagic : List Byte := [71, 73, 70, 56, 63, 97]

/-- A decoder that reads `k` bytes from the reader with one `Read` and reports
an image of the format `name`, one pixel wide and high. -/
def sampleDecoder (name : String) (k : Nat) : BufReader → Ret × BufReader :=
  fun rr => ((some { Format := name, Width := 1, Height := 1 }, none), (rr.Read k).2.2)

/-- A table with the JPEG pattern registered first and the GIF pattern second. -/
def sampleTable : Globals :=
  { atomicFormats := some [{ magic := jpegMagic, decodeMeta := sampleDecoder "jpeg" 2 },
                           { magic := gifMagic, decodeMeta := sampleDecoder "gif" 6 }] }

/-- A stream of ten bytes that starts `GIF89a`. -/
def gifStream : List Byte := [71, 73, 70, 56, 57, 97, 1, 0, 1, 0]

/-- A stream of four bytes that starts with no registered pattern. -/
def bmpStream : List Byte := [66, 77, 0, 0]

/-- A pattern of seventeen wildcard bytes. -/
def longMagic : List Byte := List.replicate 17 wildcard

/-- A table whose only entry is the seventeen-byte pattern. -/
def longTable : Globals :=
  { atomicFormats := some [{ magic := longMagic, decodeMeta := sampleDecoder "long" 0 }] }

/-- The reader `bufio.NewReaderSize(src, 16)` over a source of seventeen zero
bytes: a reader with `Peek` whose buffer holds sixteen bytes. -/
def smallReader : BufReader := { buf := [], size := 16, rd := List.replicate 17 0 }

/-- A table with the GIF pattern registered first and the shorter JPEG pattern
second. -/
def gifFirstTable : Globals :=
  { atomicFormats := some [{ magic := gifMagic, decodeMeta := sampleDecoder "gif" 6 },
                           { magic := jpegMagic, decodeMeta := sampleDecoder "jpeg" 2 }] }

/-- A stream of the two bytes of the JPEG pattern. -/
def jpegStream : List Byte := [255, 216]

/-- A table with the empty pattern registered first and the GIF pattern
second. -/
def catchAllTable : Globals :=
  { atomicFormats := some [{ magic := [], decodeMeta := sampleDecoder "any" 0 },
                           { magic := gifMagic, decodeMeta := sampleDecoder "gif" 6 }] }


end ImageSize

/-!
# Request interpretation (`parsePath`)

The functions `parsePath`, `getImageURL` and `getProcessingOptions` are
exercised by `processing_options_test.go`, but their source is not among the
source files.  They are modelled here from the specification, section by
section; the one part taken from elsewhere is the Go standard library's
`base64.RawURLEncoding`, which the tests use to build the encoded form.

URLs are lists of bytes; instruction names and arguments are strings.  Float
values are rationals, and the reading of a float from text is a parameter.
-/

namespace Imgproxy

/-- A Go `byte`. -/
abbrev Byte := Fin 256

/-- The byte with value `n mod 256`, the Go conversion `byte(n)`. -/
def byteOf (n : Nat) : Byte := ⟨n % 256, Nat.mod_lt _ (by decide)⟩

/-- The bytes of an ASCII string. -/
def bytes (s : String) : List Byte := s.toList.map fun c => byteOf c.toNat

/-! ## `encoding/base64`: `RawURLEncoding` -/

/-- The constant `encodeURL` of package `encoding/base64`: the URL-safe
alphabet. -/
def encodeURL : List Char :=
  "ABCDEFGHIJKLMNOPQRSTUVWXYZabcdefghijklmnopqrstuvwxyz0123456789-_".toList

/-- The character that stands for the six-bit value `n`. -/
def encodeChar (n : Nat) : Char := encodeURL.getD n 'A'

/-- The six-bit value a character stands for, `none` outside the alphabet. -/
def decodeChar (c : Char) : Option Nat :=
  let i := encodeURL.indexOf c
  if i < 64 then some i else none

/-- The method `RawURLEncoding.EncodeToString`: three bytes make four
characters, a last group of two bytes makes three characters and a last single
byte makes two; no padding is written. -/
def EncodeToString : List Byte → List Char
  | b0 :: b1 :: b2 :: rest =>
    let val := b0.val * 65536 + b1.val * 256 + b2.val
    encodeChar (val / 262144 % 64) :: encodeChar (val / 4096 % 64) ::
      encodeChar (val / 64 % 64) :: encodeChar (val % 64) :: EncodeToString rest
  | [b0, b1] =>
    let val := b0.val * 65536 + b1.val * 256
    [encodeChar (val / 262144 % 64), encodeChar (val / 4096 % 64), encodeChar (val / 64 % 64)]
  | [b0] =>
    let val := b0.val * 65536
    [encodeChar (val / 262144 % 64), encodeChar (val / 4096 % 64)]
  | [] => []

/-- The method `RawURLEncoding.DecodeString` on text without line breaks: `none`
is a `CorruptInputError` (a character outside the alphabet, or a last group of
one character). -/
def DecodeString : List Char → Option (List Byte)
  | c0 :: c1 :: c2 :: c3 :: rest =>
    match decodeChar c0, decodeChar c1, decodeChar c2, decodeChar c3, DecodeString rest with
    | some d0, some d1, some d2, some d3, some out =>
      let val := d0 * 262144 + d1 * 4096 + d2 * 64 + d3
      some (byteOf (val / 65536) :: byteOf (val / 256) :: byteOf val :: out)
    | _, _, _, _, _ => none
  | [c0, c1, c2] =>
    match decodeChar c0, decodeChar c1, decodeChar c2 with
    | some d0, some d1, some d2 =>
      let val := d0 * 262144 + d1 * 4096 + d2 * 64
      some [byteOf (val / 65536), byteOf (val / 256)]
    | _, _, _ => none
  | [c0, c1] =>
    match decodeChar c0, decodeChar c1 with
    | some d0, some d1 =>
      let val := d0 * 262144 + d1 * 4096
      some [byteOf (val / 65536)]
    | _, _ => none
  | [_] => none
  | [] => some []

/-! ## Data model (specification, section 3) -/

/-- Modelled from the spec: for the missing `parsePath`, the enumeration of
`Resize` (section 3 names fit, fill, force and crop). -/
inductive resizeType
  | resizeFit | resizeFill | resizeForce | resizeCrop
deriving DecidableEq, Repr

/-- Modelled from the spec: for the missing `parsePath`, the enumeration of
`Gravity.Type` (section 3: center, north, south, east, west, the four diagonals,
smart, focus-point). -/
inductive gravityType
  | gravityCenter | gravityNorth | gravitySouth | gravityEast | gravityWest
  | gravityNorthEast | gravityNorthWest | gravitySouthEast | gravitySouthWest
  | gravitySmart | gravityFocusPoint
deriving DecidableEq, Repr

/-- Modelled from the spec: for the missing `parsePath`, the enumeration of
`Format` (section 3 names jpeg, png and webp); `imageTypeUnknown` is the unset
value 0, preserve the source format. -/
inductive imageType
  | imageTypeUnknown | imageTypeJPEG | imageTypePNG | imageTypeWEBP
deriving DecidableEq, Repr

/-- Modelled from the spec: for the missing `parsePath`, the field `Gravity` of
the options (section 3). -/
structure gravityOptions where
  Type' : gravityType
  X : ℚ
  Y : ℚ
deriving DecidableEq, Repr

/-- Modelled from the spec: for the missing `parsePath`, the field `Background`,
an RGB triple of bytes. -/
structure rgbColor where
  R : Nat
  G : Nat
  B : Nat
deriving DecidableEq, Repr

/-- Modelled from the spec: for the missing `parsePath`, the field `Watermark`
(section 3). `Opacity` keeps the first argument of the instruction. -/
structure watermarkOptions where
  Enabled : Bool
  Opacity : ℚ
  Gravity : gravityType
  OffsetX : Int
  OffsetY : Int
  Scale : ℚ
deriving DecidableEq, Repr

/-- Modelled from the spec: for the missing `parsePath`, the structure
`ProcessingOptions` of section 3, the result of `getProcessingOptions`. -/
structure processingOptions where
  Resize : resizeType
  Width : Nat
  Height : Nat
  Gravity : gravityOptions
  Enlarge : Bool
  Format : imageType
  Quality : Nat
  Flatten : Bool
  Background : rgbColor
  Blur : ℚ
  Sharpen : ℚ
  Dpr : ℚ
  Watermark : watermarkOptions
  CacheBuster : String
  PreferWebP : Bool
  EnforceWebP : Bool
  UsedPresets : List String
deriving DecidableEq, Repr

/-- Modelled from the spec: for the missing `parsePath`, the default options
(section 2). Section 3 gives `Resize` fit and `Dpr` 1.0; every other field has
the zero value, which section 3 reads as unconstrained, unset or disabled. -/
def defaultProcessingOptions : processingOptions :=
  { Resize := .resizeFit, Width := 0, Height := 0,
    Gravity := { Type' := .gravityCenter, X := 0, Y := 0 },
    Enlarge := false, Format := .imageTypeUnknown, Quality := 0,
    Flatten := false, Background := { R := 0, G := 0, B := 0 },
    Blur := 0, Sharpen := 0, Dpr := 1,
    Watermark := { Enabled := false, Opacity := 0, Gravity := .gravityCenter,
                   OffsetX := 0, OffsetY := 0, Scale := 0 },
    CacheBuster := "", PreferWebP := false, EnforceWebP := false, UsedPresets := [] }

/-- Modelled from the spec: for the missing `parsePath`, an Instruction (section
3), the type `urlOption` of the tests: a name and its ordered string arguments.
-/
structure urlOption where
  Name : String
  Args : List String
deriving DecidableEq, Repr

/-- Modelled from the spec: for the missing `parsePath`, an ordered sequence of
Instructions, the type `urlOptions` of the tests. -/
abbrev urlOptions := List urlOption

/-- Modelled from the spec: the configuration surface of section 6 that the
missing `parsePath` reads, the variable `conf` of the tests. An empty `BaseURL`
is no base URL. -/
structure Config where
  BaseURL : List Byte
  Keys : List String
  Salts : List String
  AllowInsecure : Bool
  Presets : List (String × urlOptions)
  OnlyPresets : Bool
  IgnoreUnknownPresets : Bool
  EnableClientHints : Bool
  EnableWebpDetection : Bool
  EnforceWebp : Bool

/-- What the model takes from outside the repository: the reading of a float
from text (`strconv.ParseFloat`) and the signature of a path under a key and a
salt. -/
structure Env where
  parseFloat : String → Option ℚ
  sign : String → String → String → String

/-- Modelled from the spec: for the missing `parsePath`, the error kinds of
section 7 for a request, malformed request (the first four) and access denied.
`fuel` is not an error of the program: it marks a preset expansion cut off by
the recursion budget of the model. -/
inductive ParseError
  | unknownOption (name : String)
  | invalidArgs (name : String)
  | unknownPreset (name : String)
  | invalidURL
  | invalidSignature
  | fuel
deriving DecidableEq, Repr

/-! ## Option Model setters (specification, section 4.2) -/

/-- Modelled from the spec: the value of a run of decimal digits read after the
value `acc`, for the readings of arguments in the missing `parsePath`; `none` at
a character that is no digit. -/
def digitsValue : List Char → Nat → Option Nat
  | [], acc => some acc
  | c :: cs, acc =>
    if c.isDigit then digitsValue cs (acc * 10 + (c.toNat - '0'.toNat)) else none

/-- Modelled from the spec: for the missing `parsePath`, the reading of a
non-negative integer argument (section 3: every numeric field is non-negative),
a non-empty run of digits. -/
def parseNat (s : String) : Option Nat :=
  match s.toList with
  | [] => none
  | cs => digitsValue cs 0

/-- Modelled from the spec: for the missing `parsePath`, the reading of an
integer argument (the watermark offsets of section 3), digits with an optional
minus sign. -/
def parseInt (s : String) : Option Int :=
  match s.toList with
  | '-' :: c :: cs => (digitsValue (c :: cs) 0).map fun n => -(n : Int)
  | _ => (parseNat s).map fun n => (n : Int)

/-- Modelled from the spec: for the missing `parsePath`, the reading of a
boolean argument. The spec gives `Enlarge` as a boolean and the tests write true
as `1`; the spellings are those of `strconv.ParseBool`. -/
def parseBool (s : String) : Option Bool :=
  if s = "1" ∨ s = "t" ∨ s = "T" ∨ s = "true" ∨ s = "TRUE" ∨ s = "True" then some true
  else if s = "0" ∨ s = "f" ∨ s = "F" ∨ s = "false" ∨ s = "FALSE" ∨ s = "False" then some false
  else none

/-- Modelled from the spec: the value of a hexadecimal digit, for the
`background` setter of the missing `parsePath` (section 4.2). -/
def hexDigit (c : Char) : Option Nat :=
  if c.isDigit then some (c.toNat - '0'.toNat)
  else if 'a'.toNat ≤ c.toNat ∧ c.toNat ≤ 'f'.toNat then some (c.toNat - 'a'.toNat + 10)
  else if 'A'.toNat ≤ c.toNat ∧ c.toNat ≤ 'F'.toNat then some (c.toNat - 'A'.toNat + 10)
  else none

/-- Modelled from the spec: the byte written by a pair of hexadecimal digits,
for the `background` setter of the missing `parsePath` (section 4.2). -/
def hexPair (hi lo : Char) : Option Nat :=
  match hexDigit hi, hexDigit lo with
  | some h, some l => some (h * 16 + l)
  | _, _ => none

/-- Modelled from the spec: for the missing `parsePath`, the names of the resize
types (section 3). -/
def resizeTypes (s : String) : Option resizeType :=
  if s = "fit" then some .resizeFit
  else if s = "fill" then some .resizeFill
  else if s = "force" then some .resizeForce
  else if s = "crop" then some .resizeCrop
  else none

/-- Modelled from the spec: for the missing `parsePath`, the names of the
gravity directions. The tests write north-east as `noea`, south-east as `soea`
and the focus point as `fp`; the other directions of section 3 are spelt by the
same two-letter scheme. -/
def gravityTypes (s : String) : Option gravityType :=
  if s = "ce" then some .gravityCenter
  else if s = "no" then some .gravityNorth
  else if s = "so" then some .gravitySouth
  else if s = "ea" then some .gravityEast
  else if s = "we" then some .gravityWest
  else if s = "noea" then some .gravityNorthEast
  else if s = "nowe" then some .gravityNorthWest
  else if s = "soea" then some .gravitySouthEast
  else if s = "sowe" then some .gravitySouthWest
  else if s = "sm" then some .gravitySmart
  else if s = "fp" then some .gravityFocusPoint
  else none

/-- Modelled from the spec: for the missing `parsePath`, the names of the output
formats (section 3). -/
def imageTypes (s : String) : Option imageType :=
  if s = "jpeg" then some .imageTypeJPEG
  else if s = "png" then some .imageTypePNG
  else if s = "webp" then some .imageTypeWEBP
  else none

/-- Modelled from the spec: for the missing `parsePath`, the groups of fields
that the instruction names of section 4.2 target, one group for each name. -/
inductive Field
  | resize | width | height | gravity | enlarge | format | quality | background
  | blur | sharpen | dpr | watermark | cachebuster
deriving DecidableEq, Repr

/-- Modelled from the spec: for the missing `parsePath`, the table of
instruction names and aliases of sections 4.2 and 6 (`preset` is handled by the
expander of section 4.3). -/
def optionField (name : String) : Option Field :=
  if name = "resizing_type" ∨ name = "rt" ∨ name = "rs" then some .resize
  else if name = "width" ∨ name = "w" then some .width
  else if name = "height" ∨ name = "h" then some .height
  else if name = "gravity" ∨ name = "g" then some .gravity
  else if name = "enlarge" ∨ name = "el" then some .enlarge
  else if name = "format" ∨ name = "f" then some .format
  else if name = "quality" ∨ name = "q" then some .quality
  else if name = "background" ∨ name = "bg" then some .background
  else if name = "blur" then some .blur
  else if name = "sharpen" then some .sharpen
  else if name = "dpr" then some .dpr
  else if name = "watermark" then some .watermark
  else if name = "cachebuster" then some .cachebuster
  else none

/-- Modelled from the spec: for the missing `parsePath`, the setter of
`resizing_type` (section 4.2). -/
def applyResizingTypeOption (po : processingOptions) (args : List String) :
    Except ParseError processingOptions :=
  match args with
  | [a] =>
    match resizeTypes a with
    | some r => .ok { po with Resize := r }
    | none => .error (.invalidArgs "resizing_type")
  | _ => .error (.invalidArgs "resizing_type")

/-- Modelled from the spec: for the missing `parsePath`, the setter of `width`
(section 4.2). -/
def applyWidthOption (po : processingOptions) (args : List String) :
    Except ParseError processingOptions :=
  match args with
  | [a] =>
    match parseNat a with
    | some n => .ok { po with Width := n }
    | none => .error (.invalidArgs "width")
  | _ => .error (.invalidArgs "width")

/-- Modelled from the spec: for the missing `parsePath`, the setter of `height`
(section 4.2). -/
def applyHeightOption (po : processingOptions) (args : List String) :
    Except ParseError processingOptions :=
  match args with
  | [a] =>
    match parseNat a with
    | some n => .ok { po with Height := n }
    | none => .error (.invalidArgs "height")
  | _ => .error (.invalidArgs "height")

/-- Modelled from the spec: for the missing `parsePath`, the setter of `gravity`
(section 4.2): a named direction, or `fp:<x>:<y>` with `x` and `y` floats in
[0,1]. -/
def applyGravityOption (env : Env) (po : processingOptions) (args : List String) :
    Except ParseError processingOptions :=
  match args with
  | [a] =>
    match gravityTypes a with
    | some .gravityFocusPoint => .error (.invalidArgs "gravity")
    | some g => .ok { po with Gravity := { po.Gravity with Type' := g } }
    | none => .error (.invalidArgs "gravity")
  | [a, x, y] =>
    match gravityTypes a, env.parseFloat x, env.parseFloat y with
    | some .gravityFocusPoint, some fx, some fy =>
      if 0 ≤ fx ∧ fx ≤ 1 ∧ 0 ≤ fy ∧ fy ≤ 1 then
        .ok { po with Gravity := { Type' := .gravityFocusPoint, X := fx, Y := fy } }
      else .error (.invalidArgs "gravity")
    | _, _, _ => .error (.invalidArgs "gravity")
  | _ => .error (.invalidArgs "gravity")

/-- Modelled from the spec: for the missing `parsePath`, the setter of `enlarge`
(section 4.2). -/
def applyEnlargeOption (po : processingOptions) (args : List String) :
    Except ParseError processingOptions :=
  match args with
  | [a] =>
    match parseBool a with
    | some b => .ok { po with Enlarge := b }
    | none => .error (.invalidArgs "enlarge")
  | _ => .error (.invalidArgs "enlarge")

/-- Modelled from the spec: for the missing `parsePath`, the setter of `format`
(section 4.2). -/
def applyFormatOption (po : processingOptions) (args : List String) :
    Except ParseError processingOptions :=
  match args with
  | [a] =>
    match imageTypes a with
    | some t => .ok { po with Format := t }
    | none => .error (.invalidArgs "format")
  | _ => .error (.invalidArgs "format")

/-- Modelled from the spec: for the missing `parsePath`, the setter of `quality`
(section 4.2), an integer from 0 to 100. -/
def applyQualityOption (po : processingOptions) (args : List String) :
    Except ParseError processingOptions :=
  match args with
  | [a] =>
    match parseNat a with
    | some n => if n ≤ 100 then .ok { po with Quality := n } else .error (.invalidArgs "quality")
    | none => .error (.invalidArgs "quality")
  | _ => .error (.invalidArgs "quality")

/-- Modelled from the spec: for the missing `parsePath`, the setter of
`background` (section 4.2). No argument or one empty argument disables
flattening; three integers from 0 to 255 set R, G, B and enable it; one argument
of six hexadecimal digits sets R, G, B from the three pairs and enables it. -/
def applyBackgroundOption (po : processingOptions) (args : List String) :
    Except ParseError processingOptions :=
  match args with
  | [] => .ok { po with Flatten := false }
  | [a] =>
    match a.toList with
    | [] => .ok { po with Flatten := false }
    | [r1, r2, g1, g2, b1, b2] =>
      match hexPair r1 r2, hexPair g1 g2, hexPair b1 b2 with
      | some r, some g, some b =>
        .ok { po with Flatten := true, Background := { R := r, G := g, B := b } }
      | _, _, _ => .error (.invalidArgs "background")
    | _ => .error (.invalidArgs "background")
  | [r, g, b] =>
    match parseNat r, parseNat g, parseNat b with
    | some r, some g, some b =>
      if r ≤ 255 ∧ g ≤ 255 ∧ b ≤ 255 then
        .ok { po with Flatten := true, Background := { R := r, G := g, B := b } }
      else .error (.invalidArgs "background")
    | _, _, _ => .error (.invalidArgs "background")
  | _ => .error (.invalidArgs "background")

/-- Modelled from the spec: for the missing `parsePath`, the setter of `blur`
(section 4.2), a non-negative float. -/
def applyBlurOption (env : Env) (po : processingOptions) (args : List String) :
    Except ParseError processingOptions :=
  match args with
  | [a] =>
    match env.parseFloat a with
    | some x => if 0 ≤ x then .ok { po with Blur := x } else .error (.invalidArgs "blur")
    | none => .error (.invalidArgs "blur")
  | _ => .error (.invalidArgs "blur")

/-- Modelled from the spec: for the missing `parsePath`, the setter of `sharpen`
(section 4.2), a non-negative float. -/
def applySharpenOption (env : Env) (po : processingOptions) (args : List String) :
    Except ParseError processingOptions :=
  match args with
  | [a] =>
    match env.parseFloat a with
    | some x => if 0 ≤ x then .ok { po with Sharpen := x } else .error (.invalidArgs "sharpen")
    | none => .error (.invalidArgs "sharpen")
  | _ => .error (.invalidArgs "sharpen")

/-- Modelled from the spec: for the missing `parsePath`, the setter of `dpr`
(section 4.2), a positive float. -/
def applyDprOption (env : Env) (po : processingOptions) (args : List String) :
    Except ParseError processingOptions :=
  match args with
  | [a] =>
    match env.parseFloat a with
    | some x => if 0 < x then .ok { po with Dpr := x } else .error (.invalidArgs "dpr")
    | none => .error (.invalidArgs "dpr")
  | _ => .error (.invalidArgs "dpr")

/-- Modelled from the spec: for the missing `parsePath`, the setter of
`watermark` (section 4.2): five arguments of which only the first is required;
the instruction enables the watermark. Following the test
`TestParsePathAdvancedWatermark` the second argument is the gravity, the third
and fourth the offsets and the fifth the field `Scale`; an argument left out or
empty keeps the field. -/
def applyWatermarkOption (env : Env) (po : processingOptions) (args : List String) :
    Except ParseError processingOptions :=
  let bad : Except ParseError processingOptions := .error (.invalidArgs "watermark")
  match args with
  | [] => bad
  | a :: rest =>
    if rest.length > 4 then bad else
    match env.parseFloat a with
    | none => bad
    | some o =>
      let w0 := { po.Watermark with Enabled := true, Opacity := o }
      let g := rest.getD 0 ""
      let ox := rest.getD 1 ""
      let oy := rest.getD 2 ""
      let sc := rest.getD 3 ""
      match (if g = "" then some w0.Gravity else
              match gravityTypes g with
              | some .gravityFocusPoint => none
              | r => r),
            (if ox = "" then some w0.OffsetX else parseInt ox),
            (if oy = "" then some w0.OffsetY else parseInt oy),
            (if sc = "" then some w0.Scale else env.parseFloat sc) with
      | some g, some ox, some oy, some sc =>
        .ok { po with Watermark := { w0 with Gravity := g, OffsetX := ox, OffsetY := oy,
                                             Scale := sc } }
      | _, _, _, _ => bad

/-- Modelled from the spec: for the missing `parsePath`, the setter of
`cachebuster` (section 4.2), an opaque string. -/
def applyCacheBusterOption (po : processingOptions) (args : List String) :
    Except ParseError processingOptions :=
  match args with
  | [a] => .ok { po with CacheBuster := a }
  | _ => .error (.invalidArgs "cachebuster")

/-- Modelled from the spec: for the missing `parsePath`, the dispatch of section
4.2 from the targeted field group to its setter. -/
def setField (env : Env) (f : Field) (po : processingOptions) (args : List String) :
    Except ParseError processingOptions :=
  match f with
  | .resize => applyResizingTypeOption po args
  | .width => applyWidthOption po args
  | .height => applyHeightOption po args
  | .gravity => applyGravityOption env po args
  | .enlarge => applyEnlargeOption po args
  | .format => applyFormatOption po args
  | .quality => applyQualityOption po args
  | .background => applyBackgroundOption po args
  | .blur => applyBlurOption env po args
  | .sharpen => applySharpenOption env po args
  | .dpr => applyDprOption env po args
  | .watermark => applyWatermarkOption env po args
  | .cachebuster => applyCacheBusterOption po args

/-! ## Precedence (specification, sections 3, 4.3 and 4.4) -/

/-- Modelled from the spec: for the missing `parsePath`, where the value of a
field comes from. Sections 4.3 and 4.4 order the sources: a client hint and the
`@extension` of the literal form are defaults, presets come above them, the
request's query parameters above presets, and explicit path instructions on top.
-/
inductive Source
  | unset | hint | extension | preset | positional | query | path
deriving DecidableEq, Repr

/-- Modelled from the spec: for the missing `parsePath`, the precedence of a
source for a field. A legacy positional segment counts as the equivalent path
instruction (section 4.1, form 3), except that a flat `width` or `height` query
parameter takes precedence over a value the path set without an advanced
instruction (section 4.4). -/
def Source.rank (s : Source) (f : Field) : Nat :=
  match s with
  | .unset => 0
  | .hint => 1
  | .extension => 1
  | .preset => 2
  | .positional => if f = .width ∨ f = .height then 3 else 5
  | .query => 4
  | .path => 5

/-- Modelled from the spec: for the missing `parsePath`, a resolution in
progress, the options and the source that set each field group (section 3: once
a field is set by an explicit instruction it is not overwritten by a
lower-precedence source). -/
structure State where
  po : processingOptions
  setBy : Field → Source

/-- Modelled from the spec: the first value of a request header, as the missing
`parsePath` reads it (section 6). -/
def headerGet (header : List (String × String)) (name : String) : Option String :=
  header.lookup name

/-- Whether the text `needle` occurs in a text. -/
def hasInfix (needle : List Char) : List Char → Bool
  | [] => needle.isEmpty
  | c :: cs => needle.isPrefixOf (c :: cs) || hasInfix needle cs

/-- Modelled from the spec: for the missing `parsePath`, the WebP negotiation of
section 6: whether the `Accept` header of the request names `image/webp`. -/
def acceptsWebp (header : List (String × String)) : Bool :=
  match headerGet header "Accept" with
  | none => false
  | some v => hasInfix "image/webp".toList v.toList

/-- Modelled from the spec: for the missing `parsePath`, the options a
resolution is seeded with (section 2): the defaults, with `PreferWebP` set when
detection is enabled and the request accepts WebP, and with `PreferWebP` and
`EnforceWebP` both set when enforcement is enabled (sections 6 and 8). -/
def seedOptions (conf : Config) (header : List (String × String)) : processingOptions :=
  { defaultProcessingOptions with
    PreferWebP := conf.EnforceWebp || (conf.EnableWebpDetection && acceptsWebp header),
    EnforceWebP := conf.EnforceWebp }

/-- Modelled from the spec: the state a resolution of the missing `parsePath`
starts from (section 2): the seeded options, nothing set. -/
def State.init (conf : Config) (header : List (String × String)) : State :=
  { po := seedOptions conf header, setBy := fun _ => .unset }

/-- Modelled from the spec: in the missing `parsePath`, the state after the
source `src` wrote the options `po` for the field group `f`. -/
def State.write (st : State) (src : Source) (f : Field) (po : processingOptions) : State :=
  { po := po, setBy := fun g => if g = f then src else st.setBy g }

/-- Modelled from the spec: for the missing `parsePath`, `apply(options,
instruction)` of section 4.2 for an instruction other than `preset`, coming from
the source `src`. An unknown name or a malformed argument is an error; a
well-formed instruction writes its field group unless a source of higher
precedence has set it. -/
def applyURLOption (env : Env) (src : Source) (st : State) (o : urlOption) :
    Except ParseError State :=
  match optionField o.Name with
  | none => .error (.unknownOption o.Name)
  | some f =>
    match setField env f st.po o.Args with
    | .error e => .error e
    | .ok po =>
      if (st.setBy f).rank f ≤ src.rank f then .ok (st.write src f po) else .ok st

/-- Modelled from the spec: in the missing `parsePath`, the instructions of a
list applied in order (section 2), all from the source `src`. -/
def applyEach (env : Env) (src : Source) : State → urlOptions → Except ParseError State
  | st, [] => .ok st
  | st, o :: os =>
    match applyURLOption env src st o with
    | .error e => .error e
    | .ok st1 => applyEach env src st1 os

/-! ## Preset Expander (specification, section 4.3) -/

/-- Modelled from the spec: in the missing preset expander (section 4.3), the
names of a list expanded in order by `expandOne`, threading the list of used
names. -/
def expandNames (expandOne : String → List String → Except ParseError (urlOptions × List String)) :
    List String → List String → Except ParseError (urlOptions × List String)
  | [], used => .ok ([], used)
  | n :: ns, used =>
    match expandOne n used with
    | .error e => .error e
    | .ok (a, used1) =>
      match expandNames expandOne ns used1 with
      | .error e => .error e
      | .ok (b, used2) => .ok (a ++ b, used2)

/-- Modelled from the spec: in the missing preset expander (section 4.3), the
instructions of a preset with every nested `preset` instruction expanded in
place by `expandOne`. -/
def expandOptions (expandOne : String → List String → Except ParseError (urlOptions × List String)) :
    urlOptions → List String → Except ParseError (urlOptions × List String)
  | [], used => .ok ([], used)
  | o :: os, used =>
    if o.Name = "preset" then
      match expandNames expandOne o.Args used with
      | .error e => .error e
      | .ok (a, used1) =>
        match expandOptions expandOne os used1 with
        | .error e => .error e
        | .ok (b, used2) => .ok (a ++ b, used2)
    else
      match expandOptions expandOne os used with
      | .error e => .error e
      | .ok (b, used2) => .ok (o :: b, used2)

/-- Modelled from the spec: for the missing `parsePath`, the expansion of one
preset name (section 4.3). A name already used is skipped; any other name is
marked used and appended to the used names, then looked up (a missing name is an
error unless unknown presets are ignored) and its instructions are expanded with
the same used names. The first argument bounds the depth of nesting. -/
def expandPreset (conf : Config) :
    Nat → String → List String → Except ParseError (urlOptions × List String)
  | fuel, name, used =>
    if name ∈ used then .ok ([], used)
    else
      match conf.Presets.lookup name with
      | none =>
        if conf.IgnoreUnknownPresets then .ok ([], used ++ [name])
        else .error (.unknownPreset name)
      | some body =>
        match fuel with
        | 0 => .error .fuel
        | fuel + 1 => expandOptions (expandPreset conf fuel) body (used ++ [name])

/-- Modelled from the spec: for the missing `parsePath`, `expand(names,
alreadyUsed)` of section 4.3. The depth of nesting is bounded by the number of
presets, since every level uses a new name of the table. -/
def expand (conf : Config) (names : List String) (used : List String) :
    Except ParseError (urlOptions × List String) :=
  expandNames (expandPreset conf conf.Presets.length) names used

/-- Modelled from the spec: for the missing `parsePath`, the instructions of a
list applied in order (section 2). A `preset` instruction is expanded in place
and its instructions are applied as preset values; when processing is restricted
to presets every other instruction is ignored (section 4.3). -/
def applyURLOptions (env : Env) (conf : Config) (src : Source) :
    State → urlOptions → Except ParseError State
  | st, [] => .ok st
  | st, o :: os =>
    if o.Name = "preset" then
      match expand conf o.Args st.po.UsedPresets with
      | .error e => .error e
      | .ok (flat, used) =>
        match applyEach env .preset { st with po := { st.po with UsedPresets := used } } flat with
        | .error e => .error e
        | .ok st1 => applyURLOptions env conf src st1 os
    else if conf.OnlyPresets then applyURLOptions env conf src st os
    else
      match applyURLOption env src st o with
      | .error e => .error e
      | .ok st1 => applyURLOptions env conf src st1 os

/-- Modelled from the spec: for the missing `parsePath`, the implicit `default`
preset, expanded first when it is configured (section 4.3). -/
def applyDefaultPreset (env : Env) (conf : Config) (st : State) : Except ParseError State :=
  match conf.Presets.lookup "default" with
  | none => .ok st
  | some _ => applyURLOptions env conf .preset st [{ Name := "preset", Args := ["default"] }]

/-! ## Path Grammar Resolver (specification, sections 4.1 and 6) -/

/-- Modelled from the spec: for the missing `parsePath`, the source-URL part of
a request path (section 6): the literal form `plain/` url `@` extension, a
literal URL taken without the keyword (section 4.1, form 4), or the encoded form
`base64url(url)`. -/
inductive sourceURL
  | plain (url : List Byte) (extension : Option String)
  | literal (url : List Byte)
  | encoded (blob : List Char)

/-- Modelled from the spec: for the missing `parsePath`, the instruction part of
a request path (section 6): the five positional segments of the legacy form, or
the instructions of the advanced form (none, for a bare literal or encoded
form). -/
inductive pathOptions
  | legacy (resize width height gravity enlarge : String)
  | advanced (opts : urlOptions)

/-- Modelled from the spec: for the missing `parsePath`, a request as the
resolver of section 4.1 has split it: the access-control token, the text of the
path after it, the instruction part and the source-URL part of the path, the
request's own query parameters in order, and its headers. -/
structure Request where
  token : String
  rest : String
  options : pathOptions
  source : sourceURL
  query : urlOptions
  header : List (String × String)

/-- Modelled from the spec: for the missing `parsePath`, the translation of the
legacy positional segments resize-type/width/height/gravity/enlarge into the
equivalent instructions (section 4.1, form 3). -/
def positionalOptions (resize width height gravity enlarge : String) : urlOptions :=
  [{ Name := "resizing_type", Args := [resize] }, { Name := "width", Args := [width] },
   { Name := "height", Args := [height] }, { Name := "gravity", Args := [gravity] },
   { Name := "enlarge", Args := [enlarge] }]

/-- Modelled from the spec: for the missing `parsePath`, the instructions of the
path applied to the options (section 2). -/
def applyPathOptions (env : Env) (conf : Config) (st : State) :
    pathOptions → Except ParseError State
  | .legacy resize width height gravity enlarge =>
    applyURLOptions env conf .positional st
      (positionalOptions resize width height gravity enlarge)
  | .advanced opts => applyURLOptions env conf .path st opts

/-- Modelled from the spec: for the missing `parsePath`, the `@extension` of the
literal form, which sets `Format` as a low-precedence default (section 4.1, form
1). -/
def applyExtension (env : Env) (st : State) : sourceURL → Except ParseError State
  | .plain _ (some ext) => applyURLOption env .extension st { Name := "format", Args := [ext] }
  | _ => .ok st

/-- Modelled from the spec: for the missing `parsePath`, the source URL of a
request (section 4.1): the literal URL as it stands, or the decoding of the
base64url blob, whose failure is a parse error; a configured base URL is put in
front. -/
def resolveURL (conf : Config) : sourceURL → Except ParseError (List Byte)
  | .plain url _ => .ok (conf.BaseURL ++ url)
  | .literal url => .ok (conf.BaseURL ++ url)
  | .encoded blob =>
    match DecodeString blob with
    | none => .error .invalidURL
    | some url => .ok (conf.BaseURL ++ url)

/-! ## Access Control Verifier (specification, section 4.5) -/

/-- Modelled from the spec: for the missing `parsePath`, `verify(token,
restOfPath, configuredKeysAndSalts)` of section 4.5. -/
def verify (env : Env) (conf : Config) (token rest : String) : Except ParseError Unit :=
  if conf.AllowInsecure ∨ token = "unsafe" then .ok ()
  else if (conf.Keys.zip conf.Salts).any fun ks => env.sign ks.1 ks.2 rest = token then .ok ()
  else .error .invalidSignature

/-! ## Query and Header Overlay (specification, section 4.4) -/

/-- Modelled from the spec: for the missing `parsePath`, `Width` taken from the
value of a client-hint header, only if no source has set it (section 4.4). A
header that is absent or is no number leaves the options as they are. -/
def hintWidth (st : State) (value : Option String) : State :=
  match value with
  | none => st
  | some v =>
    match parseNat v with
    | none => st
    | some n =>
      if st.setBy .width = .unset then st.write .hint .width { st.po with Width := n } else st

/-- Modelled from the spec: for the missing `parsePath`, `Dpr` taken from the
value of the `DPR` header, only if no source has set it (section 4.4). -/
def hintDpr (env : Env) (st : State) (value : Option String) : State :=
  match value with
  | none => st
  | some v =>
    match env.parseFloat v with
    | none => st
    | some x =>
      if 0 < x ∧ st.setBy .dpr = .unset then st.write .hint .dpr { st.po with Dpr := x }
      else st

/-- Modelled from the spec: for the missing `parsePath`, the client-hint overlay
of section 4.4. When client hints are enabled `Width` is set from the `Width`
header, `Dpr` from the `DPR` header and `Width` from the `Viewport-Width`
header, never over a value already set; when they are disabled the headers are
not read. -/
def applyClientHints (env : Env) (conf : Config) (header : List (String × String))
    (st : State) : State :=
  if conf.EnableClientHints then
    hintWidth (hintDpr env (hintWidth st (headerGet header "Width")) (headerGet header "DPR"))
      (headerGet header "Viewport-Width")
  else st

/-- A field that no source has set holds its default value: stated for `Width`
(default 0) and `Dpr` (default 1.0). -/
def Fresh (st : State) : Prop :=
  (st.setBy .width = .unset → st.po.Width = 0) ∧ (st.setBy .dpr = .unset → st.po.Dpr = 1)

/-- The preset name `n` resolves in the configuration: it is in the preset
table, or unknown presets are ignored. -/
def Known (conf : Config) (n : String) : Prop :=
  conf.IgnoreUnknownPresets = true ∨ (conf.Presets.lookup n).isSome

instance (conf : Config) (n : String) : Decidable (Known conf n) := by
  unfold Known; infer_instance

/-- The names of `S` are closed under reference: every name that the preset
of a name of `S` refers to, in a `preset` instruction of its own, is in `S` or
among the names `used`. -/
def RefClosed (conf : Config) (used S : List String) : Prop :=
  ∀ n ∈ S, ∀ body, conf.Presets.lookup n = some body →
    ∀ o ∈ body, o.Name = "preset" → ∀ m ∈ o.Args, m ∈ S ∨ m ∈ used

/-- Every name that a `preset` instruction of a configured preset refers to. -/
def referred (conf : Config) : List String :=
  conf.Presets.flatMap fun e => e.2.flatMap fun o => if o.Name = "preset" then o.Args else []

/-- Every name among `used1` that is not among `used` resolves, and every name
that its preset refers to is among `used1`. -/
def Added (conf : Config) (used used1 : List String) : Prop :=
  ∀ n ∈ used1, n ∈ used ∨
    (Known conf n ∧ ∀ body, conf.Presets.lookup n = some body →
      ∀ o ∈ body, o.Name = "preset" → ∀ m ∈ o.Args, m ∈ used1)

/-- The number of configured preset names that are not among the used names:
the depth of nesting that an expansion can still reach. -/
def freeCount (conf : Config) (used : List String) : Nat :=
  ((conf.Presets.map Prod.fst).toFinset \ used.toFinset).card

/-- What an expansion of one name guarantees when it succeeds: the used names
are extended at the end, they hold the name, they stay free of duplicates, and
the instructions returned hold no `preset` instruction. -/
def PartOK (expandOne : String → List String → Except ParseError (urlOptions × List String)) :
    Prop :=
  ∀ n used flat used1, expandOne n used = .ok (flat, used1) →
    used <+: used1 ∧ n ∈ used1 ∧ (used.Nodup → used1.Nodup) ∧
      ∀ o ∈ flat, o.Name ≠ "preset"

/-- How an expansion of one name ends, as long as at most `k` configured names
are unused and the name is in a set `S` closed under reference: it succeeds,
adding names of `S` only, or it stops at a name of `S` that does not resolve,
with the error of an unknown preset. -/
def EndsOK (conf : Config) (S : List String) (k : Nat)
    (expandOne : String → List String → Except ParseError (urlOptions × List String)) : Prop :=
  ∀ n used, (n ∈ S ∨ n ∈ used) → RefClosed conf used S → freeCount conf used ≤ k →
    (∃ flat used1, expandOne n used = .ok (flat, used1) ∧ ∀ x ∈ used1, x ∈ used ∨ x ∈ S) ∨
    (∃ m ∈ S, ¬ Known conf m ∧ expandOne n used = .error (.unknownPreset m))

/-- The options `po` with the field group `g` taken from the options `q`. -/
def putField (g : Field) (po q : processingOptions) : processingOptions :=
  match g with
  | .resize => { po with Resize := q.Resize }
  | .width => { po with Width := q.Width }
  | .height => { po with Height := q.Height }
  | .gravity => { po with Gravity := q.Gravity }
  | .enlarge => { po with Enlarge := q.Enlarge }
  | .format => { po with Format := q.Format }
  | .quality => { po with Quality := q.Quality }
  | .background => { po with Flatten := q.Flatten, Background := q.Background }
  | .blur => { po with Blur := q.Blur }
  | .sharpen => { po with Sharpen := q.Sharpen }
  | .dpr => { po with Dpr := q.Dpr }
  | .watermark => { po with Watermark := q.Watermark }
  | .cachebuster => { po with CacheBuster := q.CacheBuster }

/-- The value of the field group `f` in the options `po`, shown on the default
options: two options agree on the group exactly when their views are equal. -/
def fieldView (f : Field) (po : processingOptions) : processingOptions :=
  putField f defaultProcessingOptions po

/-- The instructions that the path of a request carries: the translation of
the positional segments, or the advanced instructions. -/
def pathOptions.list : pathOptions → urlOptions
  | .legacy resize width height gravity enlarge =>
    positionalOptions resize width height gravity enlarge
  | .advanced opts => opts

/-- The source that the instructions of the path count as. -/
def pathOptions.src : pathOptions → Source
  | .legacy _ _ _ _ _ => .positional
  | .advanced _ => .path

/-- No instruction of the list targets the field group `f`: neither an
instruction itself, nor any instruction that a `preset` instruction of the
list expands to once the `default` preset is among the used names. -/
def Untouched (conf : Config) (f : Field) (opts : urlOptions) : Prop :=
  ∀ o ∈ opts,
    (o.Name = "preset" → ∀ used flat used1, "default" ∈ used →
      expand conf o.Args used = .ok (flat, used1) →
      ∀ o1 ∈ flat, optionField o1.Name ≠ some f) ∧
    (o.Name ≠ "preset" → optionField o.Name ≠ some f)

/-- The state that a successful resolution ends in. -/
def stateOf (r : Except ParseError State) : State :=
  match r with
  | .ok st => st
  | .error _ => { po := defaultProcessingOptions, setBy := fun _ => .unset }

/-- The value of the field group `f` in the options `po` is one that an
instruction of the list wrote: an instruction that is no `preset` instruction
and targets the group, applied to some options, gives options that agree with
`po` on the group. -/
def SetByRequest (env : Env) (opts : urlOptions) (f : Field) (po : processingOptions) : Prop :=
  ∃ o ∈ opts, o.Name ≠ "preset" ∧ optionField o.Name = some f ∧
    ∃ po0 po1, setField env f po0 o.Args = .ok po1 ∧ fieldView f po = fieldView f po1

/-- A field group that the state records as set by an instruction of the request
itself (precedence above the presets) holds a value that an instruction of the
list wrote. -/
def Explicit (env : Env) (opts : urlOptions) (f : Field) (st : State) : Prop :=
  3 ≤ (st.setBy f).rank f → SetByRequest env opts f st.po

/-- Modelled from the spec: for the missing `parsePath`, the resolution up to
the path instructions (section 2): the seeded options, the `default` preset,
then the instructions of the path. -/
def resolvePath (env : Env) (conf : Config) (header : List (String × String))
    (opts : pathOptions) (source : sourceURL) : Except ParseError State :=
  match applyDefaultPreset env conf (State.init conf header) with
  | .error e => .error e
  | .ok st1 =>
    match applyExtension env st1 source with
    | .error e => .error e
    | .ok st2 => applyPathOptions env conf st2 opts

/-- Modelled from the spec: for the missing `parsePath`, the resolution up to
the query overlay (section 2): the access-control check, the path resolution,
then the request's query parameters. -/
def resolveExplicit (env : Env) (conf : Config) (req : Request) : Except ParseError State :=
  match verify env conf req.token req.rest with
  | .error e => .error e
  | .ok _ =>
    match resolvePath env conf req.header req.options req.source with
    | .error e => .error e
    | .ok st => applyURLOptions env conf .query st req.query

/-- Modelled from the spec: for the missing `parsePath`, the finished options of
a request (section 2): the explicit resolution followed by the header overlay.
-/
def resolveOptions (env : Env) (conf : Config) (req : Request) :
    Except ParseError processingOptions :=
  match resolveExplicit env conf req with
  | .error e => .error e
  | .ok st => .ok (applyClientHints env conf req.header st).po

/-- Modelled from the spec: what the missing `parsePath` attaches to the
request's context (section 6): the resolved source URL and the resolved options.
-/
structure Context where
  imageURL : List Byte
  po : processingOptions
deriving DecidableEq, Repr

/-- Modelled from the spec: the function `parsePath`, whose source is missing:
the options and the source URL of a request, or the error that aborts it
(sections 2 and 7: no partial result). -/
def parsePath (env : Env) (conf : Config) (req : Request) : Except ParseError Context :=
  match resolveOptions env conf req with
  | .error e => .error e
  | .ok po =>
    match resolveURL conf req.source with
    | .error e => .error e
    | .ok url => .ok { imageURL := url, po := po }

/-- Modelled from the spec: the function `getImageURL`, whose source is missing,
as the tests call it. -/
def getImageURL (ctx : Context) : List Byte := ctx.imageURL

/-- Modelled from the spec: the function `getProcessingOptions`, whose source is
missing, as the tests call it. -/
def getProcessingOptions (ctx : Context) : processingOptions := ctx.po

/-! ## Instruction segments (specification, sections 4.1 and 6) -/

/-- A reading of plain decimal numerals, digits with an optional fraction, as
exact rationals: a stand-in for `strconv.ParseFloat` on such text. -/
def parseDecimal (s : String) : Option ℚ :=
  match s.toList.span fun c => c != '.' with
  | (whole, []) => (parseNat (String.mk whole)).map fun n => (n : ℚ)
  | (whole, _ :: frac) =>
    match parseNat (String.mk whole), parseNat (String.mk frac) with
    | some a, some b => some ((a : ℚ) + (b : ℚ) / (10 : ℚ) ^ frac.length)
    | _, _ => none

/-- An environment with the decimal reading of floats and no signatures. -/
def sampleEnv : Env := { parseFloat := parseDecimal, sign := fun _ _ _ => "" }

/-- The configuration the tests start from: insecure requests allowed, no base
URL, no presets, client hints off. -/
def testConf : Config :=
  { BaseURL := [], Keys := [], Salts := [], AllowInsecure := true, Presets := [],
    OnlyPresets := false, IgnoreUnknownPresets := false, EnableClientHints := false,
    EnableWebpDetection := false, EnforceWebp := false }

/-- The source URL of `TestParseBase64URL`, with a query string of its own. -/
def testImageURL : List Byte := bytes "http://images.dev/lorem/ipsum.jpg?param=value"

/-- The request of `TestParseBase64URL`: the encoded form of `testImageURL`
with the outer query string `w=100&h=100`. -/
def base64Request : Request :=
  { token := "unsafe", rest := String.mk (EncodeToString testImageURL),
    options := .advanced [], source := .encoded (EncodeToString testImageURL),
    query := [{ Name := "w", Args := ["100"] }, { Name := "h", Args := ["100"] }],
    header := [] }

/-- The request of the `Width` header tests: a literal URL, the given query
parameters and the given headers. -/
def hintRequest (query : urlOptions) (header : List (String × String)) : Request :=
  { token := "unsafe", rest := "http://images.dev/lorem/ipsum.jpg",
    options := .advanced [],
    source := .literal (bytes "http://images.dev/lorem/ipsum.jpg"),
    query := query, header := header }

/-- The configuration of `TestParseBase64URLWithBase`: the base URL
`http://images.dev/`. -/
def baseConf : Config := { testConf with BaseURL := bytes "http://images.dev/" }

/-- The source URL of `TestParseBase64URLWithBase`, relative to the base URL. -/
def relativeImageURL : List Byte := bytes "lorem/ipsum.jpg?param=value"

/-- The request of `TestParseBase64URLWithBase`: the encoded form of
`relativeImageURL` with the outer query string `w=100&h=100`. -/
def base64BaseRequest : Request :=
  { base64Request with
    rest := String.mk (EncodeToString relativeImageURL),
    source := .encoded (EncodeToString relativeImageURL) }

/-- The configuration of the client-hint tests: client hints enabled. -/
def hintsConf : Config := { testConf with EnableClientHints := true }

/-- The request of `TestParsePathWidthHeaderRedefine`: the query parameter
`width=150` and the header `Width: 100`. -/
def redefineRequest : Request :=
  hintRequest [{ Name := "width", Args := ["150"] }] [("Width", "100")]

/-- The explicit resolution of `redefineRequest`: the default options with
the width 150, set by the query. -/
def redefineState : State :=
  { po := { defaultProcessingOptions with Width := 150 },
    setBy := fun f => if f = .width then .query else .unset }

/-- The configuration of `TestParsePathAdvancedPresetLoopDetection`: the
presets `test1` and `test2`. -/
def presetConf : Config :=
  { testConf with
    Presets := [("test1", [{ Name := "resizing_type", Args := ["fill"] }]),
                ("test2", [{ Name := "blur", Args := ["0.2"] },
                           { Name := "quality", Args := ["50"] }])] }

/-- A configuration with a nested chain of presets: `test1` applies `test2`,
which applies `test1` again. -/
def loopConf : Config :=
  { testConf with
    Presets := [("test1", [{ Name := "resizing_type", Args := ["fill"] },
                           { Name := "preset", Args := ["test2"] }]),
                ("test2", [{ Name := "quality", Args := ["50"] },
                           { Name := "preset", Args := ["test1"] }])] }

/-- A configuration with a preset `test2` that refers to a preset that is not
configured; the preset `test1` does not reach it. -/
def danglingConf : Config :=
  { testConf with
    Presets := [("test1", [{ Name := "resizing_type", Args := ["fill"] }]),
                ("test2", [{ Name := "preset", Args := ["test3"] }])] }

/-- The request of `TestParsePathAdvancedPresetLoopDetection`: the query
parameter `preset=test1:test2:test1`. -/
def loopRequest : Request :=
  hintRequest [{ Name := "preset", Args := ["test1", "test2", "test1"] }] []

/-- The configuration of `TestParsePathPresetDefault`: the preset `default`. -/
def defaultConf : Config :=
  { testConf with
    Presets := [("default", [{ Name := "resizing_type", Args := ["fill"] },
                             { Name := "blur", Args := ["0.2"] },
                             { Name := "quality", Args := ["50"] }])] }

/-- The request of `TestParsePathPresetDefault`: the query parameter
`quality=70`. -/
def qualityRequest : Request := hintRequest [{ Name := "quality", Args := ["70"] }] []

/-- The state after the stage of the `default` preset of `defaultConf`: the
three field groups of the preset are written and recorded as set by a preset.
-/
def defaultState : State :=
  { po := { defaultProcessingOptions with
            Resize := .resizeFill, Blur := 0.2, Quality := 50, UsedPresets := ["default"] },
    setBy := fun f => if f = .resize ∨ f = .blur ∨ f = .quality then .preset else .unset }

/-- The result that `TestParsePathPresetDefault` expects: the source URL, and
the options of the `default` preset with the quality of the request. -/
def qualityContext : Context :=
  { imageURL := bytes "http://images.dev/lorem/ipsum.jpg",
    po := { defaultProcessingOptions with
            Resize := .resizeFill, Blur := 0.2, Quality := 70, UsedPresets := ["default"] } }


end Imgproxy

namespace ImageSize

/-! ## Lemmas on `matchMagic` -/

theorem matchMagic.loop_spec (magic : List Byte) :
    ∀ (rest : List Byte) (i : Nat), i + rest.length ≤ magic.length →
      ∃ r, matchMagic.loop magic i rest = some r ∧
        (r = true ↔ ∀ j, j < rest.length →
          magic[i + j]? = rest[j]? ∨ magic[i + j]? = some wildcard) := by
  intro rest
  induction rest with
  | nil => intro i _; exact ⟨true, rfl, by simp⟩
  | cons c rest ih =>
    intro i hi
    have hlt : i < magic.length := by simp at hi; omega
    simp only [matchMagic.loop, List.getElem?_eq_getElem hlt]
    by_cases hm : (magic[i] != c && magic[i] != wildcard) = true
    · refine ⟨false, by simp [hm], ?_⟩
      simp only [Bool.false_eq_true, false_iff]
      intro h
      have h0 := h 0 (by simp)
      simp only [Nat.add_zero, List.getElem?_eq_getElem hlt, List.length_cons,
        Nat.zero_lt_succ, List.getElem?_eq_getElem, List.getElem_cons_zero,
        Option.some.injEq] at h0
      simp only [Bool.and_eq_true, bne_iff_ne, ne_eq] at hm
      rcases h0 with h0 | h0
      · exact hm.1 h0
      · exact hm.2 h0
    · obtain ⟨r, hr, hiff⟩ := ih (i + 1) (by simp at hi; omega)
      refine ⟨r, by simp [hm, hr], ?_⟩
      rw [hiff]
      simp only [Bool.and_eq_true, bne_iff_ne, ne_eq, not_and, not_not] at hm
      constructor
      · intro h j hj
        cases j with
        | zero =>
          simp only [Nat.add_zero, List.getElem?_eq_getElem hlt, List.length_cons,
            Nat.zero_lt_succ, List.getElem?_eq_getElem, List.getElem_cons_zero,
            Option.some.injEq]
          by_cases hc : magic[i] = c
          · exact Or.inl hc
          · exact Or.inr (hm hc)
        | succ j =>
          have := h j (by simp at hj; omega)
          simpa [Nat.add_assoc, Nat.add_comm 1 j] using this
      · intro h j hj
        have := h (j + 1) (by simp; omega)
        simpa [Nat.add_assoc, Nat.add_comm 1 j] using this

theorem matchMagic_spec (magic b : List Byte) :
    ∃ r, matchMagic magic b = some r ∧ (r = true ↔ Agrees magic b) := by
  unfold matchMagic Agrees
  by_cases hlen : magic.length = b.length
  · obtain ⟨r, hr, hiff⟩ := matchMagic.loop_spec magic b 0 (by omega)
    refine ⟨r, by simp [hlen, hr], ?_⟩
    rw [hiff]
    simp [hlen]
  · exact ⟨false, by simp [hlen], by simp [hlen]⟩


/-! ## Lemmas on the buffered reader -/

theorem BufReader.fill_unread (b : BufReader) : b.fill.unread = b.unread := by
  simp [BufReader.fill, BufReader.unread]

theorem BufReader.Peek_rr (b : BufReader) (n : Nat) :
    (b.Peek n).2.2 = if b.buf.length < n ∧ b.buf.length < b.size then b.fill else b := by
  unfold BufReader.Peek
  simp only []
  split_ifs <;> rfl

theorem BufReader.Peek_unread (b : BufReader) (n : Nat) :
    (b.Peek n).2.2.unread = b.unread := by
  rw [BufReader.Peek_rr]
  split_ifs
  · exact b.fill_unread
  · rfl

theorem BufReader.Peek_size (b : BufReader) (n : Nat) :
    (b.Peek n).2.2.size = b.size := by
  rw [BufReader.Peek_rr]
  split_ifs <;> rfl

theorem BufReader.Peek_err (b : BufReader) (n : Nat) :
    (b.Peek n).2.1 = none ↔ n ≤ b.size ∧ n ≤ b.unread.length := by
  unfold BufReader.Peek BufReader.unread
  by_cases hg : b.buf.length < n ∧ b.buf.length < b.size
  · simp only [hg, and_self, if_true, BufReader.fill, List.length_append, List.length_take]
    split_ifs <;> simp <;> omega
  · simp only [hg, if_false, List.length_append]
    split_ifs <;> simp <;> omega

theorem BufReader.Peek_bytes (b : BufReader) (n : Nat) (h : (b.Peek n).2.1 = none) :
    (b.Peek n).1 = b.unread.take n := by
  have hu := b.Peek_unread n
  rw [BufReader.Peek_rr] at hu
  unfold BufReader.Peek at h ⊢
  by_cases hg : b.buf.length < n ∧ b.buf.length < b.size
  · simp only [hg, and_self, if_true] at h hu ⊢
    split_ifs at h ⊢ with h2 h3
    rw [← hu, BufReader.unread, List.take_append_of_le_length (by omega)]
  · simp only [hg, if_false] at h hu ⊢
    split_ifs at h ⊢ with h2 h3
    rw [BufReader.unread, List.take_append_of_le_length (by omega)]

/-! ## Lemmas on the loop of `DecodeMeta` -/

theorem DecodeMeta.loop_cons_hit (f : format) (rest : List format) (k : Nat)
    (rr : BufReader) (h : Hit rr f) :
    DecodeMeta.loop (f :: rest) k rr =
      some { ret := (f.decodeMeta (rr.Peek f.magic.length).2.2).1,
             rr := (f.decodeMeta (rr.Peek f.magic.length).2.2).2,
             calls := [(k, (rr.Peek f.magic.length).2.2)] } := by
  have herr := (rr.Peek_err f.magic.length).2 ⟨h.1, h.2.1⟩
  have hb := rr.Peek_bytes f.magic.length herr
  obtain ⟨r, hr, hiff⟩ := matchMagic_spec f.magic (rr.unread.take f.magic.length)
  have hrt : r = true := hiff.2 h.2.2
  subst hrt
  rcases hP : rr.Peek f.magic.length with ⟨b, e, rr1⟩
  rw [hP] at herr hb
  simp only at herr hb
  subst herr hb
  simp only [DecodeMeta.loop, hP, hr]

theorem DecodeMeta.loop_cons_miss (f : format) (rest : List format) (k : Nat)
    (rr : BufReader) (h : ¬ Hit rr f) :
    DecodeMeta.loop (f :: rest) k rr =
      DecodeMeta.loop rest (k + 1) (rr.Peek f.magic.length).2.2 := by
  rcases hP : rr.Peek f.magic.length with ⟨b, e, rr1⟩
  cases e with
  | some e => simp only [DecodeMeta.loop, hP]
  | none =>
    have herr : (rr.Peek f.magic.length).2.1 = none := by rw [hP]
    have hb := rr.Peek_bytes f.magic.length herr
    rw [hP] at hb
    simp only at hb
    subst hb
    obtain ⟨r, hr, hiff⟩ := matchMagic_spec f.magic (rr.unread.take f.magic.length)
    have hle := (rr.Peek_err f.magic.length).1 herr
    have hrf : r = false := by
      cases r with
      | false => rfl
      | true => exact absurd ⟨hle.1, hle.2, hiff.1 rfl⟩ h
    subst hrf
    simp only [DecodeMeta.loop, hP, hr]

theorem Hit_congr (rr rr1 : BufReader) (f : format) (hu : rr1.unread = rr.unread)
    (hs : rr1.size = rr.size) : Hit rr1 f ↔ Hit rr f := by
  unfold Hit; rw [hu, hs]

theorem DecodeMeta.loop_no_hit : ∀ (fs : List format) (k : Nat) (rr : BufReader),
    (∀ f ∈ fs, ¬ Hit rr f) →
    ∃ rr1, rr1.unread = rr.unread ∧ rr1.size = rr.size ∧
      DecodeMeta.loop fs k rr =
        some { ret := (none, some .ErrFormat), rr := rr1, calls := [] } := by
  intro fs
  induction fs with
  | nil => intro k rr _; exact ⟨rr, rfl, rfl, rfl⟩
  | cons f rest ih =>
    intro k rr h
    rw [DecodeMeta.loop_cons_miss f rest k rr (h f (List.mem_cons_self _ _))]
    have hu := rr.Peek_unread f.magic.length
    have hs := rr.Peek_size f.magic.length
    obtain ⟨rr1, h1, h2, h3⟩ := ih (k + 1) (rr.Peek f.magic.length).2.2 (by
      intro f1 hf1
      rw [Hit_congr rr _ f1 hu hs]
      exact h f1 (List.mem_cons_of_mem _ hf1))
    exact ⟨rr1, h1.trans hu, h2.trans hs, h3⟩

theorem DecodeMeta.loop_first_hit : ∀ (fs : List format) (i k : Nat) (rr : BufReader)
    (f : format), fs[i]? = some f → (∀ f1 ∈ fs.take i, ¬ Hit rr f1) → Hit rr f →
    ∃ st, st.unread = rr.unread ∧ st.size = rr.size ∧
      DecodeMeta.loop fs k rr =
        some { ret := (f.decodeMeta st).1, rr := (f.decodeMeta st).2,
               calls := [(k + i, st)] } := by
  intro fs
  induction fs with
  | nil => intro i k rr f hf; simp at hf
  | cons g rest ih =>
    intro i k rr f hf hmin hhit
    have hu := rr.Peek_unread g.magic.length
    have hs := rr.Peek_size g.magic.length
    cases i with
    | zero =>
      simp only [List.getElem?_cons_zero, Option.some.injEq] at hf
      subst hf
      exact ⟨_, hu, hs, DecodeMeta.loop_cons_hit g rest k rr hhit⟩
    | succ i =>
      simp only [List.getElem?_cons_succ] at hf
      rw [DecodeMeta.loop_cons_miss g rest k rr (hmin g (by simp))]
      obtain ⟨st, h1, h2, h3⟩ := ih i (k + 1) (rr.Peek g.magic.length).2.2 f hf (by
        intro f1 hf1
        rw [Hit_congr rr _ f1 hu hs]
        exact hmin f1 (by simp [List.take_succ_cons, hf1]))
        ((Hit_congr rr _ f hu hs).2 hhit)
      refine ⟨st, h1.trans hu, h2.trans hs, ?_⟩
      rw [h3, Nat.add_assoc, Nat.add_comm 1 i]

theorem Agrees_set (magic b : List Byte) (i : Nat) (x : Byte) (h : Agrees magic b)
    (hi : i < b.length) :
    Agrees magic (b.set i x) ↔ magic[i]? = some wildcard ∨ b[i]? = some x := by
  obtain ⟨hlen, hall⟩ := h
  unfold Agrees
  rw [List.length_set]
  constructor
  · rintro ⟨-, h2⟩
    have hx := h2 i hi
    rw [List.getElem?_set_self hi] at hx
    rcases hx with hx | hx
    · rcases hall i hi with h0 | h0
      · exact Or.inr (h0 ▸ hx)
      · exact Or.inl h0
    · exact Or.inl hx
  · intro h1
    refine ⟨hlen, fun j hj => ?_⟩
    by_cases hij : i = j
    · subst hij
      rw [List.getElem?_set_self hi]
      rcases h1 with h1 | h1
      · exact Or.inr h1
      · rcases hall i hi with h0 | h0
        · exact Or.inl (h0.trans h1)
        · exact Or.inr h0
    · rw [List.getElem?_set_ne hij]
      exact hall j hj

theorem matchMagic_eq_decide (magic b : List Byte) :
    matchMagic magic b = some (decide (Agrees magic b)) := by
  obtain ⟨r, hr, hiff⟩ := matchMagic_spec magic b
  rw [hr]
  congr 1
  cases r <;> simp_all

theorem BufReader.Peek_buf_le (b : BufReader) (n : Nat) (h : b.buf.length ≤ b.size) :
    (b.Peek n).2.2.buf.length ≤ b.size := by
  rw [BufReader.Peek_rr]
  split_ifs
  · simp only [BufReader.fill, List.length_append, List.length_take]
    omega
  · exact h

theorem Peeked.step (rr st : BufReader) (n : Nat) (h : Peeked (rr.Peek n).2.2 st) :
    Peeked rr st := by
  obtain ⟨h1, h2, h3⟩ := h
  have hs := rr.Peek_size n
  refine ⟨h1.trans (rr.Peek_unread n), h2.trans hs, fun hle => ?_⟩
  have := h3 (by rw [hs]; exact rr.Peek_buf_le n hle)
  rwa [hs] at this

theorem DecodeMeta.loop_calls : ∀ (fs : List format) (k : Nat) (rr : BufReader),
    ∃ o, DecodeMeta.loop fs k rr = some o ∧
      (∀ c ∈ o.calls, Peeked rr c.2) ∧ (o.calls = [] → Peeked rr o.rr) := by
  intro fs
  induction fs with
  | nil =>
    intro k rr
    exact ⟨_, rfl, by simp, fun _ => ⟨rfl, rfl, fun h => h⟩⟩
  | cons f rest ih =>
    intro k rr
    by_cases hhit : Hit rr f
    · refine ⟨_, DecodeMeta.loop_cons_hit f rest k rr hhit, ?_, by simp⟩
      intro c hc
      simp only [List.mem_singleton] at hc
      subst hc
      exact ⟨rr.Peek_unread _, rr.Peek_size _, rr.Peek_buf_le _⟩
    · obtain ⟨o, ho, h1, h2⟩ := ih (k + 1) (rr.Peek f.magic.length).2.2
      refine ⟨o, ?_, fun c hc => Peeked.step rr c.2 _ (h1 c hc),
        fun hc => Peeked.step rr o.rr _ (h2 hc)⟩
      rw [DecodeMeta.loop_cons_miss f rest k rr hhit, ho]

theorem RegisterFormat_Load (g : Globals) (magic : List Byte)
    (decodeMeta : BufReader → Ret × BufReader) :
    (RegisterFormat g magic decodeMeta).Load =
      g.Load ++ [{ magic := magic, decodeMeta := decodeMeta }] := rfl

theorem step_extends (g : Globals) (op : Op) : g.Load <+: (step g op).Load := by
  cases op with
  | register magic decodeMeta =>
    rw [step, RegisterFormat_Load]
    exact List.prefix_append _ _
  | decode r => exact List.prefix_refl _

theorem run_extends : ∀ (ops : List Op) (g : Globals), g.Load <+: (run g ops).Load := by
  intro ops
  induction ops with
  | nil => intro g; exact List.prefix_refl _
  | cons op ops ih =>
    intro g
    exact (step_extends g op).trans (ih (step g op))

theorem asReader_unread (r : Input) : (asReader r).unread = r.unread := by
  cases r <;> simp [asReader, Input.unread, NewReader, BufReader.unread]

theorem DecodeMeta.loop_cons_err (f : format) (rest : List format) (k : Nat)
    (rr : BufReader) (h : (rr.Peek f.magic.length).2.1 ≠ none) :
    DecodeMeta.loop (f :: rest) k rr =
      DecodeMeta.loop rest (k + 1) (rr.Peek f.magic.length).2.2 := by
  rcases hP : rr.Peek f.magic.length with ⟨b, e, rr1⟩
  rw [hP] at h
  cases e with
  | some e => simp only [DecodeMeta.loop, hP]
  | none => exact absurd rfl h

theorem DecodeMeta.loop_outcome : ∀ (fs : List format) (k : Nat) (rr : BufReader),
    ∃ o, DecodeMeta.loop fs k rr = some o ∧
      ((o.calls = [] ∧ o.ret = (none, some .ErrFormat) ∧ ∀ f ∈ fs, ¬ Hit rr f) ∨
       (∃ i f st, fs[i]? = some f ∧ Hit rr f ∧ (∀ f1 ∈ fs.take i, ¬ Hit rr f1) ∧
          o.calls = [(k + i, st)] ∧ o.ret = (f.decodeMeta st).1)) := by
  intro fs
  induction fs with
  | nil =>
    intro k rr
    exact ⟨_, rfl, Or.inl ⟨rfl, rfl, by simp⟩⟩
  | cons g rest ih =>
    intro k rr
    by_cases hhit : Hit rr g
    · refine ⟨_, DecodeMeta.loop_cons_hit g rest k rr hhit, Or.inr ⟨0, g, _, List.getElem?_cons_zero, hhit, ?_, rfl, rfl⟩⟩
      simp
    · have hu := rr.Peek_unread g.magic.length
      have hs := rr.Peek_size g.magic.length
      obtain ⟨o, ho, hcase⟩ := ih (k + 1) (rr.Peek g.magic.length).2.2
      refine ⟨o, by rw [DecodeMeta.loop_cons_miss g rest k rr hhit, ho], ?_⟩
      rcases hcase with ⟨h1, h2, h3⟩ | ⟨i, f, st, h1, h2, h3, h4, h5⟩
      · refine Or.inl ⟨h1, h2, fun f hf => ?_⟩
        rcases List.mem_cons.1 hf with hf | hf
        · rw [hf]; exact hhit
        · exact fun hh => h3 f hf ((Hit_congr rr _ f hu hs).2 hh)
      · refine Or.inr ⟨i + 1, f, st, by simpa using h1, (Hit_congr rr _ f hu hs).1 h2, ?_, ?_, h5⟩
        · intro f1 hf1
          rw [List.take_succ_cons] at hf1
          rcases List.mem_cons.1 hf1 with hf1 | hf1
          · rw [hf1]; exact hhit
          · exact fun hh => h3 f1 hf1 ((Hit_congr rr _ f1 hu hs).2 hh)
        · rw [h4, Nat.add_assoc, Nat.add_comm 1 i]

theorem Hit_shadow (rr : BufReader) (p q : format)
    (hlen : p.magic.length ≤ q.magic.length)
    (hsh : ∀ k, k < p.magic.length → p.magic[k]? = some wildcard ∨ p.magic[k]? = q.magic[k]?)
    (hq : Hit rr q) : Hit rr p := by
  obtain ⟨hq1, hq2, hq3, hq4⟩ := hq
  refine ⟨hlen.trans hq1, hlen.trans hq2, ?_, ?_⟩
  · rw [List.length_take]
    omega
  · intro k hk
    rw [List.length_take] at hk
    have hkp : k < p.magic.length := by omega
    have hkq : k < (List.take q.magic.length rr.unread).length := by
      rw [List.length_take]; omega
    rw [List.getElem?_take_of_lt hkp]
    have hq5 := hq4 k hkq
    rw [List.getElem?_take_of_lt (by omega)] at hq5
    rcases hsh k hkp with h | h
    · exact Or.inr h
    · rcases hq5 with h5 | h5
      · exact Or.inl (h.trans h5)
      · exact Or.inr (h.trans h5)

theorem mem_take_of_getElem? {α : Type} (l : List α) (i j : Nat) (a : α)
    (h : l[i]? = some a) (hij : i < j) : a ∈ l.take j :=
  List.mem_iff_getElem?.2 ⟨i, by rw [List.getElem?_take_of_lt hij]; exact h⟩

theorem Hit_nil (rr : BufReader) (p : format) (h : p.magic = []) : Hit rr p := by
  refine ⟨by simp [h], by simp [h], by simp [h], ?_⟩
  intro i hi
  simp [h] at hi

/-! ## Claims on the format registry -/

/-- C1: `matchMagic(magic, b)` always returns (the unchecked index `magic[i]`
never panics), and it returns true exactly when `len(magic) = len(b)` and at
every index `i < len(b)` the byte `magic[i]` equals `b[i]` or is the wildcard
byte `?`. -/
theorem matchMagic_true_iff (magic b : List Byte) :
    (∃ r, matchMagic magic b = some r) ∧
    (matchMagic magic b = some true ↔
      magic.length = b.length ∧
        ∀ i, i < b.length → magic[i]? = b[i]? ∨ magic[i]? = some wildcard) ∧
    wildcard.val = '?'.toNat := by
  obtain ⟨r, hr, hiff⟩ := matchMagic_spec magic b
  refine ⟨⟨r, hr⟩, ?_, rfl⟩
  rw [hr, Option.some.injEq, hiff]
  rfl

/-- C4: wildcard positions are respected exactly.  When `matchMagic(magic, b)`
is true and the byte of `b` at a position `i` is replaced by `x`, the result
still matches exactly when `magic[i]` is the wildcard or `x` is the byte that
was there: at a wildcard position every replacement matches, at any other
position every different byte fails to match. -/
theorem matchMagic_replace_byte (magic b : List Byte) (i : Nat) (x : Byte)
    (h : matchMagic magic b = some true) (hi : i < b.length) :
    matchMagic magic (b.set i x) =
      some (decide (magic[i]? = some wildcard ∨ b[i]? = some x)) := by
  rw [matchMagic_eq_decide] at h ⊢
  have hA : Agrees magic b := by simpa using h
  congr 1
  rw [decide_eq_decide]
  exact Agrees_set magic b i x hA hi

/-- C4, at the pattern `GIF8?a` and a stream that starts `GIF89a`: replacing
the byte under the wildcard by `7` still matches. -/
theorem matchMagic_replace_byte_witness :
    matchMagic gifMagic (gifStream.take 6) = some true ∧ 4 < (gifStream.take 6).length ∧
    matchMagic gifMagic ((gifStream.take 6).set 4 7) =
      some (decide (gifMagic[4]? = some wildcard ∨ (gifStream.take 6)[4]? = some 7)) :=
  ⟨by decide, by decide,
    matchMagic_replace_byte gifMagic (gifStream.take 6) 4 7 (by decide) (by decide)⟩

/-- C2, as the code has it: first match wins in registration order, among the
entries whose pattern fits the reader's buffer.  If `i` is the least index
whose pattern is no longer than the buffer of the reader, with the stream
holding at least `len(magic_i)` bytes and `magic_i` agreeing with the first
`len(magic_i)` of them, then `DecodeMeta` returns exactly what `decoder_i`
returns on the reader (whose unread bytes are those of the input), and the
only decoder call is that of entry `i`. -/
theorem DecodeMeta_first_match (g : Globals) (r : Input) (i : Nat) (f : format)
    (hf : g.Load[i]? = some f)
    (hfit : f.magic.length ≤ (asReader r).size)
    (hlead : Leads r.unread f.magic)
    (hmin : ∀ f1 ∈ g.Load.take i,
      ¬ (f1.magic.length ≤ (asReader r).size ∧ Leads r.unread f1.magic)) :
    ∃ st, st.unread = r.unread ∧
      DecodeMeta g r =
        (g, some { ret := (f.decodeMeta st).1, rr := (f.decodeMeta st).2,
                   calls := [(i, st)] }) := by
  have hu : (asReader r).unread = r.unread := by
    cases r <;> simp [asReader, Input.unread, NewReader, BufReader.unread]
  obtain ⟨st, h1, -, h3⟩ := DecodeMeta.loop_first_hit g.Load i 0 (asReader r) f hf
    (fun f1 hf1 hh => hmin f1 hf1 ⟨hh.1, hu ▸ hh.2⟩) ⟨hfit, hu ▸ hlead⟩
  refine ⟨st, h1.trans hu, ?_⟩
  rw [DecodeMeta, h3, Nat.zero_add]

/-- C2, on the sample table and a plain stream that starts `GIF89a`: the JPEG
entry does not match, the GIF entry (index 1) decides. -/
theorem DecodeMeta_first_match_witness :
    ∃ st, st.unread = (Input.plain gifStream).unread ∧
      DecodeMeta sampleTable (.plain gifStream) =
        (sampleTable,
          some { ret := (sampleDecoder "gif" 6 st).1, rr := (sampleDecoder "gif" 6 st).2,
                 calls := [(1, st)] }) :=
  DecodeMeta_first_match sampleTable (.plain gifStream) 1
    { magic := gifMagic, decodeMeta := sampleDecoder "gif" 6 } rfl (by decide) (by decide)
    (by
      intro f1 hf1
      simp only [sampleTable, Globals.Load, List.take_succ_cons, List.take_zero,
        List.mem_singleton] at hf1
      subst hf1
      decide)

/-- C2 fails as stated: the only entry is a pattern of seventeen wildcards, the
stream is a reader with a sixteen-byte buffer over seventeen bytes.  The
stream holds seventeen bytes and the pattern agrees with them, so index 0 is
the least matching index; but `Peek(17)` fails with `ErrBufferFull`, the entry
is skipped, no decoder is called and `DecodeMeta` returns `ErrFormat` where
the entry's decoder returns a `Meta` and no error. -/
theorem DecodeMeta_long_magic_skipped :
    longTable.Load[0]? = some { magic := longMagic, decodeMeta := sampleDecoder "long" 0 } ∧
    longMagic.length ≤ (Input.peeker smallReader).unread.length ∧
    matchMagic longMagic ((Input.peeker smallReader).unread.take longMagic.length) = some true ∧
    (smallReader.Peek longMagic.length).2.1 = some GoError.ErrBufferFull ∧
    (DecodeMeta longTable (.peeker smallReader)).2 =
      some { ret := (none, some GoError.ErrFormat),
             rr := { buf := List.replicate 16 0, size := 16, rd := [0] },
             calls := [] } ∧
    (sampleDecoder "long" 0 { buf := List.replicate 16 0, size := 16, rd := [0] }).1 =
      (some { Format := "long", Width := 1, Height := 1 }, none) := by
  refine ⟨rfl, by decide, by decide, by decide, by decide, rfl⟩

/-- C3: if no registered pattern leads the stream (the stream is shorter than
the pattern or the pattern disagrees with its first bytes), as when the table
is empty, `DecodeMeta` returns no `Meta` together with `ErrFormat`, whose
message is "unknown image format", and calls no decoder. -/
theorem DecodeMeta_no_match (g : Globals) (r : Input)
    (h : ∀ f ∈ g.Load, ¬ Leads r.unread f.magic) :
    (∃ rr1, DecodeMeta g r =
      (g, some { ret := (none, some GoError.ErrFormat), rr := rr1, calls := [] })) ∧
    GoError.ErrFormat.Error = "unknown image format" := by
  have hu : (asReader r).unread = r.unread := by
    cases r <;> simp [asReader, Input.unread, NewReader, BufReader.unread]
  obtain ⟨rr1, -, -, h3⟩ := DecodeMeta.loop_no_hit g.Load 0 (asReader r)
    (fun f hf hh => h f hf (hu ▸ hh.2))
  exact ⟨⟨rr1, by rw [DecodeMeta, h3]⟩, rfl⟩

/-- C3, on the sample table and a stream that starts with neither pattern. -/
theorem DecodeMeta_no_match_witness :
    (∃ rr1, DecodeMeta sampleTable (.plain bmpStream) =
      (sampleTable, some { ret := (none, some GoError.ErrFormat), rr := rr1, calls := [] })) ∧
    GoError.ErrFormat.Error = "unknown image format" :=
  DecodeMeta_no_match sampleTable (.plain bmpStream) (by
    intro f hf
    simp only [sampleTable, Globals.Load, List.mem_cons, List.mem_singleton,
      List.not_mem_nil, or_false] at hf
    rcases hf with hf | hf <;> subst hf <;> decide)

/-- C5: the registry is append-only.  `RegisterFormat(magic, decode)` turns the
table into the table followed by the one entry `(magic, decode)`: the length
grows by one and every earlier entry keeps its content and position;
`DecodeMeta` leaves the table as it was; so after any sequence of
registrations and detections the earlier table is a prefix of the later one. -/
theorem registry_append_only :
    (∀ (g : Globals) (magic : List Byte) (decodeMeta : BufReader → Ret × BufReader),
      (RegisterFormat g magic decodeMeta).Load =
          g.Load ++ [{ magic := magic, decodeMeta := decodeMeta }] ∧
        (RegisterFormat g magic decodeMeta).Load.length = g.Load.length + 1 ∧
        ∀ i, i < g.Load.length → (RegisterFormat g magic decodeMeta).Load[i]? = g.Load[i]?) ∧
    (∀ (g : Globals) (r : Input), (DecodeMeta g r).1 = g) ∧
    (∀ (g : Globals) (ops : List Op), g.Load <+: (run g ops).Load) := by
  refine ⟨fun g magic decodeMeta => ⟨rfl, ?_, fun i hi => ?_⟩, fun _ _ => rfl,
    fun g ops => run_extends ops g⟩
  · rw [RegisterFormat_Load, List.length_append, List.length_singleton]
  · rw [RegisterFormat_Load, List.getElem?_append_left hi]

/-- C6: detection only peeks.  `Peek` never moves the read position; every
decoder that `DecodeMeta` calls is handed a reader whose unread bytes are the
complete byte sequence of the input, magic prefix included; and when no
decoder is called the reader is left with those same unread bytes. -/
theorem DecodeMeta_only_peeks (g : Globals) (r : Input) :
    (∀ (rr : BufReader) (n : Nat), (rr.Peek n).2.2.unread = rr.unread) ∧
    ∃ o, DecodeMeta g r = (g, some o) ∧
      (∀ c ∈ o.calls, c.2.unread = r.unread) ∧
      (o.calls = [] → o.rr.unread = r.unread) := by
  refine ⟨BufReader.Peek_unread, ?_⟩
  obtain ⟨o, ho, h1, h2⟩ := DecodeMeta.loop_calls g.Load 0 (asReader r)
  refine ⟨o, by rw [DecodeMeta, ho], fun c hc => ?_, fun hc => ?_⟩
  · exact (h1 c hc).1.trans (asReader_unread r)
  · exact (h2 hc).1.trans (asReader_unread r)

/-- C7 fails as stated: on the sample table and a plain ten-byte stream that
starts `GIF89a`, the GIF decoder is called and reads six bytes, so four bytes
are still unread; but the buffered reader that `asReader` made has taken all
ten bytes from the caller's stream, which is left empty: the four unread
bytes sit in the buffer of a reader the caller never sees. -/
theorem DecodeMeta_plain_reads_ahead :
    (DecodeMeta sampleTable (.plain gifStream)).2 =
      some { ret := (some { Format := "gif", Width := 1, Height := 1 }, none),
             rr := { buf := [1, 0, 1, 0], size := 4096, rd := [] },
             calls := [(1, { buf := gifStream, size := 4096, rd := [] })] } ∧
    (Input.plain gifStream).after { buf := [1, 0, 1, 0], size := 4096, rd := [] } = [] ∧
    gifStream.drop 6 = [1, 0, 1, 0] := by
  refine ⟨by decide, rfl, rfl⟩

/-- C7, as the code has it.  For an input that offers `Peek`, detection takes
nothing from the caller's stream: the decoder is handed the caller's reader
with its unread bytes unchanged, and so is the caller when no decoder is
called.  For a plain input, detection reads through a new buffered reader,
which by the time the decoder is called (or `ErrFormat` is returned) has taken
some `k` bytes, at most the buffer size of 4096 and possibly the whole stream,
from the caller's stream: these bytes are unread in the buffer, and the
caller's stream is left at its byte `k`. -/
theorem DecodeMeta_read_ahead_bounded (g : Globals) :
    (∀ rr : BufReader, ∃ o, DecodeMeta g (.peeker rr) = (g, some o) ∧
      (∀ c ∈ o.calls, (Input.peeker rr).after c.2 = rr.unread) ∧
      (o.calls = [] → (Input.peeker rr).after o.rr = rr.unread)) ∧
    (∀ src : List Byte, ∃ o, DecodeMeta g (.plain src) = (g, some o) ∧
      (∀ c ∈ o.calls, c.2.buf.length ≤ defaultBufSize ∧
        c.2.buf = src.take c.2.buf.length ∧
        (Input.plain src).after c.2 = src.drop c.2.buf.length) ∧
      (o.calls = [] → o.rr.buf.length ≤ defaultBufSize ∧
        o.rr.buf = src.take o.rr.buf.length ∧
        (Input.plain src).after o.rr = src.drop o.rr.buf.length)) := by
  have key : ∀ (src : List Byte) (st : BufReader), Peeked (NewReader src) st →
      st.buf.length ≤ defaultBufSize ∧ st.buf = src.take st.buf.length ∧
        (Input.plain src).after st = src.drop st.buf.length := by
    rintro src st ⟨h1, -, h3⟩
    have hsrc : st.buf ++ st.rd = src := by
      simpa [BufReader.unread, NewReader] using h1
    refine ⟨h3 (Nat.zero_le _), ?_, ?_⟩
    · rw [← hsrc, List.take_left]
    · rw [← hsrc, List.drop_left]; rfl
  constructor
  · intro rr
    obtain ⟨o, ho, h1, h2⟩ := DecodeMeta.loop_calls g.Load 0 rr
    exact ⟨o, by rw [DecodeMeta, asReader, ho], fun c hc => (h1 c hc).1,
      fun hc => (h2 hc).1⟩
  · intro src
    obtain ⟨o, ho, h1, h2⟩ := DecodeMeta.loop_calls g.Load 0 (NewReader src)
    exact ⟨o, by rw [DecodeMeta, asReader, ho], fun c hc => key src c.2 (h1 c hc),
      fun hc => key src o.rr (h2 hc)⟩

/-- C15: peek failures are never reported.  An entry whose `Peek` returns an
error is skipped, and the remaining entries are tried on a reader with the
same unread bytes; `Peek(n)` returns an error whenever the stream holds fewer
than `n` bytes.  `DecodeMeta` returns either `ErrFormat`, with no decoder
called, or exactly what the one decoder it calls returns: never the error of a
`Peek`.  A stream shorter than every registered pattern yields `ErrFormat`.
On the table with the GIF pattern before the JPEG pattern, a stream of the
two JPEG bytes fails the peek of six bytes and is still decoded by the JPEG
entry; on the empty stream the same table yields `ErrFormat`. -/
theorem peek_failures_skipped :
    (∀ (f : format) (rest : List format) (k : Nat) (rr : BufReader),
      (rr.Peek f.magic.length).2.1 ≠ none →
        DecodeMeta.loop (f :: rest) k rr =
            DecodeMeta.loop rest (k + 1) (rr.Peek f.magic.length).2.2 ∧
          (rr.Peek f.magic.length).2.2.unread = rr.unread) ∧
    (∀ (rr : BufReader) (n : Nat), rr.unread.length < n → (rr.Peek n).2.1 ≠ none) ∧
    (∀ (g : Globals) (r : Input), ∃ o, DecodeMeta g r = (g, some o) ∧
      ((o.calls = [] ∧ o.ret = (none, some GoError.ErrFormat)) ∨
        ∃ i f st, g.Load[i]? = some f ∧ o.calls = [(i, st)] ∧
          o.ret = (f.decodeMeta st).1)) ∧
    (∀ (g : Globals) (r : Input), (∀ f ∈ g.Load, r.unread.length < f.magic.length) →
      ∃ rr1, DecodeMeta g r =
        (g, some { ret := (none, some GoError.ErrFormat), rr := rr1, calls := [] })) ∧
    ((NewReader jpegStream).Peek gifMagic.length).2.1 = some GoError.EOF ∧
    (DecodeMeta gifFirstTable (.plain jpegStream)).2 =
      some { ret := (some { Format := "jpeg", Width := 1, Height := 1 }, none),
             rr := { buf := [], size := 4096, rd := [] },
             calls := [(1, { buf := jpegStream, size := 4096, rd := [] })] } ∧
    (DecodeMeta gifFirstTable (.plain [])).2 =
      some { ret := (none, some GoError.ErrFormat),
             rr := { buf := [], size := 4096, rd := [] }, calls := [] } := by
  refine ⟨fun f rest k rr h => ⟨DecodeMeta.loop_cons_err f rest k rr h, rr.Peek_unread _⟩,
    fun rr n h hnone => ?_, fun g r => ?_, fun g r h => ?_, by decide, by decide, by decide⟩
  · have := ((rr.Peek_err n).1 hnone).2
    omega
  · obtain ⟨o, ho, hcase⟩ := DecodeMeta.loop_outcome g.Load 0 (asReader r)
    refine ⟨o, by rw [DecodeMeta, ho], ?_⟩
    rcases hcase with ⟨h1, h2, -⟩ | ⟨i, f, st, h1, -, -, h4, h5⟩
    · exact Or.inl ⟨h1, h2⟩
    · exact Or.inr ⟨i, f, st, h1, by rw [h4, Nat.zero_add], h5⟩
  · obtain ⟨rr1, -, -, h3⟩ := DecodeMeta.loop_no_hit g.Load 0 (asReader r) (by
      intro f hf hh
      have := h f hf
      have h2 := hh.2.1
      rw [asReader_unread] at h2
      omega)
    exact ⟨rr1, by rw [DecodeMeta, h3]⟩

/-- C16: shadowing by registration order.  If the entry `p` is registered
before the entry `q`, `p`'s pattern is no longer than `q`'s, and at every
position `p`'s pattern holds the wildcard or the byte of `q`'s pattern, then
on no stream does `DecodeMeta` call the decoder of `q`.  If moreover `p`'s
pattern is empty, `DecodeMeta` calls a decoder on every stream, that of `p` or
of an entry before it. -/
theorem earlier_entry_shadows (g : Globals) (r : Input) (i j : Nat) (p q : format)
    (hp : g.Load[i]? = some p) (hq : g.Load[j]? = some q) (hij : i < j)
    (hlen : p.magic.length ≤ q.magic.length)
    (hsh : ∀ k, k < p.magic.length →
      p.magic[k]? = some wildcard ∨ p.magic[k]? = q.magic[k]?) :
    ∃ o, DecodeMeta g r = (g, some o) ∧
      (∀ c ∈ o.calls, c.1 ≠ j) ∧
      (p.magic = [] → ∃ k st, k ≤ i ∧ o.calls = [(k, st)]) := by
  obtain ⟨o, ho, hcase⟩ := DecodeMeta.loop_outcome g.Load 0 (asReader r)
  refine ⟨o, by rw [DecodeMeta, ho], ?_, ?_⟩
  · rcases hcase with ⟨h1, -, -⟩ | ⟨i0, f, st, h1, h2, h3, h4, -⟩
    · rw [h1]; simp
    · intro c hc
      rw [h4] at hc
      simp only [List.mem_singleton] at hc
      rw [hc, Nat.zero_add]
      intro hi0
      have hi1 : i0 = j := hi0
      rw [hi1, hq] at h1
      cases h1
      exact h3 p (mem_take_of_getElem? g.Load i i0 p hp (by omega))
        (Hit_shadow (asReader r) p q hlen hsh h2)
  · intro hnil
    rcases hcase with ⟨-, -, h3⟩ | ⟨i0, f, st, -, -, h3, h4, -⟩
    · exact absurd (Hit_nil (asReader r) p hnil)
        (h3 p (List.mem_iff_getElem?.2 ⟨i, hp⟩))
    · refine ⟨i0, st, ?_, by rw [h4, Nat.zero_add]⟩
      by_contra hlt
      exact h3 p (mem_take_of_getElem? g.Load i i0 p hp (by omega))
        (Hit_nil (asReader r) p hnil)

/-- C16, on the table with the empty pattern before the GIF pattern and the
empty stream: the GIF entry is never called, the entry of the empty pattern is. -/
theorem earlier_entry_shadows_witness :
    ∃ o, DecodeMeta catchAllTable (.plain []) = (catchAllTable, some o) ∧
      (∀ c ∈ o.calls, c.1 ≠ 1) ∧
      (([] : List Byte) = [] → ∃ k st, k ≤ 0 ∧ o.calls = [(k, st)]) :=
  earlier_entry_shadows catchAllTable (.plain []) 0 1
    { magic := [], decodeMeta := sampleDecoder "any" 0 }
    { magic := gifMagic, decodeMeta := sampleDecoder "gif" 6 } rfl rfl (by decide)
    (by decide) (fun k hk => absurd hk (Nat.not_lt_zero k))


end ImageSize

namespace Imgproxy

/-! ## Lemmas on `RawURLEncoding` -/

theorem decodeChar_encodeChar : ∀ n, n < 64 → decodeChar (encodeChar n) = some n := by
  decide

theorem byteOf_eq (b : Byte) (n : Nat) (h : n % 256 = b.val) : byteOf n = b :=
  Fin.ext h

theorem DecodeString_EncodeToString (u : List Byte) :
    DecodeString (EncodeToString u) = some u := by
  induction u using EncodeToString.induct with
  | case1 b0 b1 b2 rest ih =>
    have h0 := b0.isLt
    have h1 := b1.isLt
    have h2 := b2.isLt
    simp only [EncodeToString, DecodeString,
      decodeChar_encodeChar _ (Nat.mod_lt _ (by decide : 64 > 0)), ih]
    simp only [Option.some.injEq, List.cons.injEq, and_true]
    refine ⟨byteOf_eq _ _ ?_, byteOf_eq _ _ ?_, byteOf_eq _ _ ?_⟩ <;> omega
  | case2 b0 b1 =>
    have h0 := b0.isLt
    have h1 := b1.isLt
    simp only [EncodeToString, DecodeString,
      decodeChar_encodeChar _ (Nat.mod_lt _ (by decide : 64 > 0))]
    simp only [Option.some.injEq, List.cons.injEq, and_true]
    refine ⟨byteOf_eq _ _ ?_, byteOf_eq _ _ ?_⟩ <;> omega
  | case3 b0 =>
    have h0 := b0.isLt
    simp only [EncodeToString, DecodeString,
      decodeChar_encodeChar _ (Nat.mod_lt _ (by decide : 64 > 0))]
    simp only [Option.some.injEq, List.cons.injEq, and_true]
    exact byteOf_eq _ _ (by omega)
  | case4 => rfl

/-! ## Lemmas on the source of a field -/

theorem State.write_setBy (st : State) (src : Source) (f g : Field) (po : processingOptions) :
    (st.write src f po).setBy g = if g = f then src else st.setBy g := rfl

theorem applyURLOption_setBy (env : Env) (src : Source) (st st1 : State) (o : urlOption)
    (h : applyURLOption env src st o = .ok st1) (g : Field) :
    st1.setBy g = st.setBy g ∨ st1.setBy g = src := by
  unfold applyURLOption at h
  split at h
  · cases h
  · split at h
    · cases h
    · split at h
      · cases h
        rw [State.write_setBy]
        split
        · exact Or.inr rfl
        · exact Or.inl rfl
      · cases h
        exact Or.inl rfl

theorem applyEach_setBy (env : Env) (src : Source) :
    ∀ (opts : urlOptions) (st st1 : State), applyEach env src st opts = .ok st1 →
      ∀ g, st1.setBy g = st.setBy g ∨ st1.setBy g = src := by
  intro opts
  induction opts with
  | nil =>
    intro st st1 h g
    cases h
    exact Or.inl rfl
  | cons o os ih =>
    intro st st1 h g
    unfold applyEach at h
    split at h
    · cases h
    · next st2 h2 =>
      rcases ih st2 st1 h g with h3 | h3
      · rcases applyURLOption_setBy env src st st2 o h2 g with h4 | h4
        · exact Or.inl (h3.trans h4)
        · exact Or.inr (h3.trans h4)
      · exact Or.inr h3

theorem applyURLOptions_setBy (env : Env) (conf : Config) (src : Source) :
    ∀ (opts : urlOptions) (st st1 : State), applyURLOptions env conf src st opts = .ok st1 →
      ∀ g, st1.setBy g = st.setBy g ∨ st1.setBy g = src ∨ st1.setBy g = .preset := by
  intro opts
  induction opts with
  | nil =>
    intro st st1 h g
    cases h
    exact Or.inl rfl
  | cons o os ih =>
    intro st st1 h g
    unfold applyURLOptions at h
    split at h
    · split at h
      · cases h
      · next flat used _ =>
        split at h
        · cases h
        · next st2 h2 =>
          rcases ih st2 st1 h g with h3 | h3
          · rcases applyEach_setBy env .preset flat _ st2 h2 g with h4 | h4
            · exact Or.inl (h3.trans h4)
            · exact Or.inr (Or.inr (h3.trans h4))
          · exact Or.inr h3
    · split at h
      · exact ih st st1 h g
      · split at h
        · cases h
        · next st2 h2 =>
          rcases ih st2 st1 h g with h3 | h3
          · rcases applyURLOption_setBy env src st st2 o h2 g with h4 | h4
            · exact Or.inl (h3.trans h4)
            · exact Or.inr (Or.inl (h3.trans h4))
          · exact Or.inr h3

theorem hintWidth_of_set (st : State) (value : Option String)
    (h : st.setBy .width ≠ .unset) : hintWidth st value = st := by
  unfold hintWidth
  split
  · rfl
  · split
    · rfl
    · rw [if_neg h]

theorem hintWidth_of_unset (st : State) (v : String) (n : Nat)
    (h : st.setBy .width = .unset) (hn : parseNat v = some n) :
    hintWidth st (some v) = st.write .hint .width { st.po with Width := n } := by
  simp only [hintWidth, hn, h, if_true]

theorem hintDpr_of_set (env : Env) (st : State) (value : Option String)
    (h : st.setBy .dpr ≠ .unset) : hintDpr env st value = st := by
  unfold hintDpr
  split
  · rfl
  · split
    · rfl
    · rw [if_neg (fun hc => h hc.2)]

theorem hintDpr_width (env : Env) (st : State) (value : Option String) :
    (hintDpr env st value).po.Width = st.po.Width ∧
      (hintDpr env st value).setBy .width = st.setBy .width := by
  unfold hintDpr
  split
  · exact ⟨rfl, rfl⟩
  · split
    · exact ⟨rfl, rfl⟩
    · split
      · exact ⟨rfl, rfl⟩
      · exact ⟨rfl, rfl⟩

theorem hintWidth_dpr (st : State) (value : Option String) :
    (hintWidth st value).po.Dpr = st.po.Dpr ∧
      (hintWidth st value).setBy .dpr = st.setBy .dpr := by
  unfold hintWidth
  split
  · exact ⟨rfl, rfl⟩
  · split
    · exact ⟨rfl, rfl⟩
    · split
      · exact ⟨rfl, rfl⟩
      · exact ⟨rfl, rfl⟩

theorem setField_Width (env : Env) (f : Field) (po po1 : processingOptions) (args : List String)
    (h : setField env f po args = .ok po1) (hf : f ≠ .width) : po1.Width = po.Width := by
  cases f <;>
    simp only [setField, applyResizingTypeOption, applyWidthOption, applyHeightOption,
      applyGravityOption, applyEnlargeOption, applyFormatOption, applyQualityOption,
      applyBackgroundOption, applyBlurOption, applySharpenOption, applyDprOption,
      applyWatermarkOption, applyCacheBusterOption] at h <;>
    first
    | exact absurd rfl hf
    | (repeat' split at h) <;> first | (cases h; rfl) | cases h

theorem setField_Dpr (env : Env) (f : Field) (po po1 : processingOptions) (args : List String)
    (h : setField env f po args = .ok po1) (hf : f ≠ .dpr) : po1.Dpr = po.Dpr := by
  cases f <;>
    simp only [setField, applyResizingTypeOption, applyWidthOption, applyHeightOption,
      applyGravityOption, applyEnlargeOption, applyFormatOption, applyQualityOption,
      applyBackgroundOption, applyBlurOption, applySharpenOption, applyDprOption,
      applyWatermarkOption, applyCacheBusterOption] at h <;>
    first
    | exact absurd rfl hf
    | (repeat' split at h) <;> first | (cases h; rfl) | cases h

theorem Fresh_init (conf : Config) (header : List (String × String)) :
    Fresh (State.init conf header) := ⟨fun _ => rfl, fun _ => rfl⟩

theorem applyURLOption_Fresh (env : Env) (src : Source) (st st1 : State) (o : urlOption)
    (hsrc : src ≠ .unset) (hst : Fresh st) (h : applyURLOption env src st o = .ok st1) :
    Fresh st1 := by
  unfold applyURLOption at h
  split at h
  · cases h
  · next f _ =>
    split at h
    · cases h
    · next po hpo =>
      split at h
      · cases h
        constructor
        · intro hw
          rw [State.write_setBy] at hw
          split at hw
          · exact absurd hw hsrc
          · next hne =>
            show po.Width = 0
            rw [setField_Width env f st.po po o.Args hpo (fun hc => hne hc.symm)]
            exact hst.1 hw
        · intro hd
          rw [State.write_setBy] at hd
          split at hd
          · exact absurd hd hsrc
          · next hne =>
            show po.Dpr = 1
            rw [setField_Dpr env f st.po po o.Args hpo (fun hc => hne hc.symm)]
            exact hst.2 hd
      · cases h
        exact hst

theorem applyEach_Fresh (env : Env) (src : Source) (hsrc : src ≠ .unset) :
    ∀ (opts : urlOptions) (st st1 : State), Fresh st → applyEach env src st opts = .ok st1 →
      Fresh st1 := by
  intro opts
  induction opts with
  | nil => intro st st1 hst h; cases h; exact hst
  | cons o os ih =>
    intro st st1 hst h
    unfold applyEach at h
    split at h
    · cases h
    · next st2 h2 => exact ih st2 st1 (applyURLOption_Fresh env src st st2 o hsrc hst h2) h

theorem applyURLOptions_Fresh (env : Env) (conf : Config) (src : Source) (hsrc : src ≠ .unset) :
    ∀ (opts : urlOptions) (st st1 : State), Fresh st →
      applyURLOptions env conf src st opts = .ok st1 → Fresh st1 := by
  intro opts
  induction opts with
  | nil => intro st st1 hst h; cases h; exact hst
  | cons o os ih =>
    intro st st1 hst h
    unfold applyURLOptions at h
    split at h
    · split at h
      · cases h
      · next flat used _ =>
        split at h
        · cases h
        · next st2 h2 =>
          have hst2 : Fresh { st with po := { st.po with UsedPresets := used } } :=
            ⟨hst.1, hst.2⟩
          exact ih st2 st1 (applyEach_Fresh env .preset (by decide) flat _ st2 hst2 h2) h
    · split at h
      · exact ih st st1 hst h
      · split at h
        · cases h
        · next st2 h2 => exact ih st2 st1 (applyURLOption_Fresh env src st st2 o hsrc hst h2) h

theorem resolveExplicit_Fresh (env : Env) (conf : Config) (req : Request) (st : State)
    (h : resolveExplicit env conf req = .ok st) : Fresh st := by
  unfold resolveExplicit at h
  split at h
  · cases h
  · split at h
    · cases h
    · next st3 h3 =>
      refine applyURLOptions_Fresh env conf .query (by decide) _ st3 st ?_ h
      unfold resolvePath at h3
      split at h3
      · cases h3
      · next st1 h1 =>
        split at h3
        · cases h3
        · next st2 h2 =>
          have f1 : Fresh st1 := by
            unfold applyDefaultPreset at h1
            split at h1
            · cases h1; exact Fresh_init conf req.header
            · exact applyURLOptions_Fresh env conf .preset (by decide) _ _ st1
                (Fresh_init conf req.header) h1
          have f2 : Fresh st2 := by
            unfold applyExtension at h2
            split at h2
            · exact applyURLOption_Fresh env .extension st1 st2 _ (by decide) f1 h2
            · cases h2; exact f1
          cases hopts : req.options with
          | legacy a b c d e =>
            rw [hopts] at h3
            exact applyURLOptions_Fresh env conf .positional (by decide) _ st2 st3 f2 h3
          | advanced opts =>
            rw [hopts] at h3
            exact applyURLOptions_Fresh env conf .path (by decide) _ st2 st3 f2 h3

/-! ## Lemmas on the preset expander -/

theorem lookup_mem_keys (l : List (String × urlOptions)) (n : String) (body : urlOptions)
    (h : l.lookup n = some body) : n ∈ l.map Prod.fst := by
  induction l with
  | nil => simp at h
  | cons e es ih =>
    obtain ⟨k, b⟩ := e
    rw [List.lookup_cons] at h
    by_cases hk : n = k
    · simp [hk]
    · have hne : (n == k) = false := by simpa using hk
      rw [hne] at h
      exact List.mem_cons_of_mem _ (ih h)

theorem lookup_mem (l : List (String × urlOptions)) (n : String) (body : urlOptions)
    (h : l.lookup n = some body) : (n, body) ∈ l := by
  induction l with
  | nil => simp at h
  | cons e es ih =>
    obtain ⟨k, b⟩ := e
    rw [List.lookup_cons] at h
    by_cases hk : n = k
    · have he : (n == k) = true := by simpa using hk
      rw [he] at h
      cases h
      rw [hk]
      exact List.mem_cons_self _ _
    · have hne : (n == k) = false := by simpa using hk
      rw [hne] at h
      exact List.mem_cons_of_mem _ (ih h)

theorem freeCount_mono (conf : Config) (used used1 : List String) (h : used ⊆ used1) :
    freeCount conf used1 ≤ freeCount conf used := by
  unfold freeCount
  apply Finset.card_le_card
  apply Finset.sdiff_subset_sdiff (Finset.Subset.refl _)
  intro x hx
  rw [List.mem_toFinset] at hx ⊢
  exact h hx

theorem freeCount_concat (conf : Config) (used : List String) (n : String)
    (body : urlOptions) (hl : conf.Presets.lookup n = some body) (hn : n ∉ used) :
    freeCount conf (used ++ [n]) < freeCount conf used := by
  unfold freeCount
  apply Finset.card_lt_card
  rw [Finset.ssubset_iff_of_subset]
  · refine ⟨n, ?_, ?_⟩
    · rw [Finset.mem_sdiff, List.mem_toFinset, List.mem_toFinset]
      exact ⟨lookup_mem_keys _ _ _ hl, hn⟩
    · rw [Finset.mem_sdiff, List.mem_toFinset, List.mem_toFinset]
      simp
  · apply Finset.sdiff_subset_sdiff (Finset.Subset.refl _)
    intro x hx
    rw [List.mem_toFinset] at hx ⊢
    exact List.mem_append_left _ hx

theorem freeCount_le (conf : Config) (used : List String) :
    freeCount conf used ≤ conf.Presets.length := by
  unfold freeCount
  calc ((conf.Presets.map Prod.fst).toFinset \ used.toFinset).card
      ≤ (conf.Presets.map Prod.fst).toFinset.card := Finset.card_le_card Finset.sdiff_subset
    _ ≤ (conf.Presets.map Prod.fst).length := List.toFinset_card_le _
    _ = conf.Presets.length := List.length_map _ _

theorem expandNames_part
    (expandOne : String → List String → Except ParseError (urlOptions × List String))
    (hE : PartOK expandOne) :
    ∀ (names used : List String) (flat : urlOptions) (used1 : List String),
      expandNames expandOne names used = .ok (flat, used1) →
      used <+: used1 ∧ (∀ n ∈ names, n ∈ used1) ∧ (used.Nodup → used1.Nodup) ∧
        ∀ o ∈ flat, o.Name ≠ "preset" := by
  intro names
  induction names with
  | nil =>
    intro used flat used1 h
    cases h
    exact ⟨List.prefix_refl _, by simp, id, by simp⟩
  | cons n ns ih =>
    intro used flat used1 h
    unfold expandNames at h
    split at h
    · cases h
    · next a u1 h1 =>
      split at h
      · cases h
      · next b u2 h2 =>
        cases h
        obtain ⟨p1, m1, d1, f1⟩ := hE n used a u1 h1
        obtain ⟨p2, m2, d2, f2⟩ := ih u1 b used1 h2
        refine ⟨p1.trans p2, ?_, fun hd => d2 (d1 hd), ?_⟩
        · intro x hx
          rcases List.mem_cons.1 hx with hx | hx
          · rw [hx]; exact p2.subset m1
          · exact m2 x hx
        · intro o ho
          rcases List.mem_append.1 ho with ho | ho
          · exact f1 o ho
          · exact f2 o ho

theorem expandOptions_part
    (expandOne : String → List String → Except ParseError (urlOptions × List String))
    (hE : PartOK expandOne) :
    ∀ (body : urlOptions) (used : List String) (flat : urlOptions) (used1 : List String),
      expandOptions expandOne body used = .ok (flat, used1) →
      used <+: used1 ∧ (used.Nodup → used1.Nodup) ∧ ∀ o ∈ flat, o.Name ≠ "preset" := by
  intro body
  induction body with
  | nil =>
    intro used flat used1 h
    cases h
    exact ⟨List.prefix_refl _, id, by simp⟩
  | cons o os ih =>
    intro used flat used1 h
    unfold expandOptions at h
    split at h
    · split at h
      · cases h
      · next a u1 h1 =>
        split at h
        · cases h
        · next b u2 h2 =>
          cases h
          obtain ⟨p1, -, d1, f1⟩ := expandNames_part expandOne hE o.Args used a u1 h1
          obtain ⟨p2, d2, f2⟩ := ih u1 b used1 h2
          refine ⟨p1.trans p2, fun hd => d2 (d1 hd), ?_⟩
          intro x hx
          rcases List.mem_append.1 hx with hx | hx
          · exact f1 x hx
          · exact f2 x hx
    · next hname =>
      split at h
      · cases h
      · next b u2 h2 =>
        cases h
        obtain ⟨p2, d2, f2⟩ := ih used b used1 h2
        refine ⟨p2, d2, ?_⟩
        intro x hx
        rcases List.mem_cons.1 hx with hx | hx
        · rw [hx]; exact hname
        · exact f2 x hx

theorem expandPreset_part (conf : Config) : ∀ k, PartOK (expandPreset conf k) := by
  intro k
  induction k with
  | zero =>
    intro n used flat used1 h
    unfold expandPreset at h
    split at h
    · next hmem => cases h; exact ⟨List.prefix_refl _, hmem, id, by simp⟩
    · next hmem =>
      split at h
      · split at h
        · cases h
          exact ⟨List.prefix_append _ _, by simp,
            fun hd => List.Nodup.append hd (List.nodup_singleton _) (by simpa using hmem),
            by simp⟩
        · cases h
      · cases h
  | succ k ih =>
    intro n used flat used1 h
    unfold expandPreset at h
    split at h
    · next hmem => cases h; exact ⟨List.prefix_refl _, hmem, id, by simp⟩
    · next hmem =>
      split at h
      · split at h
        · cases h
          exact ⟨List.prefix_append _ _, by simp,
            fun hd => List.Nodup.append hd (List.nodup_singleton _) (by simpa using hmem),
            by simp⟩
        · cases h
      · next body _ =>
        obtain ⟨p, d, f⟩ := expandOptions_part _ ih body (used ++ [n]) flat used1 h
        refine ⟨(List.prefix_append _ _).trans p, p.subset (by simp), fun hd => d ?_, f⟩
        exact List.Nodup.append hd (List.nodup_singleton _) (by simpa using hmem)

theorem RefClosed_mono (conf : Config) (used used1 S : List String) (hsub : used ⊆ used1)
    (h : RefClosed conf used S) : RefClosed conf used1 S :=
  fun n hn body hl o ho hname m hm => (h n hn body hl o ho hname m hm).imp id fun x => hsub x

theorem expandNames_ends (conf : Config) (S : List String) (k : Nat)
    (expandOne : String → List String → Except ParseError (urlOptions × List String))
    (hP : PartOK expandOne) (hE : EndsOK conf S k expandOne) :
    ∀ (names used : List String), (∀ n ∈ names, n ∈ S ∨ n ∈ used) → RefClosed conf used S →
      freeCount conf used ≤ k →
      (∃ flat used1, expandNames expandOne names used = .ok (flat, used1) ∧
        ∀ x ∈ used1, x ∈ used ∨ x ∈ S) ∨
      (∃ m ∈ S, ¬ Known conf m ∧
        expandNames expandOne names used = .error (.unknownPreset m)) := by
  intro names
  induction names with
  | nil => intro used _ _ _; exact Or.inl ⟨[], used, rfl, fun x hx => Or.inl hx⟩
  | cons n ns ih =>
    intro used hn hc hf
    rcases hE n used (hn n (List.mem_cons_self _ _)) hc hf with
      ⟨a, u1, h1, s1⟩ | ⟨m, hm, hk, he⟩
    · have hsub := (hP n used a u1 h1).1.subset
      rcases ih u1 (fun x hx => (hn x (List.mem_cons_of_mem _ hx)).imp id fun y => hsub y)
          (RefClosed_mono conf used u1 S hsub hc)
          ((freeCount_mono conf used u1 hsub).trans hf) with
        ⟨b, u2, h2, s2⟩ | ⟨m, hm, hk, he⟩
      · refine Or.inl ⟨a ++ b, u2, by simp only [expandNames, h1, h2], fun x hx => ?_⟩
        rcases s2 x hx with hx1 | hx1
        · exact s1 x hx1
        · exact Or.inr hx1
      · exact Or.inr ⟨m, hm, hk, by simp only [expandNames, h1, he]⟩
    · exact Or.inr ⟨m, hm, hk, by simp only [expandNames, he]⟩

theorem expandOptions_ends (conf : Config) (S : List String) (k : Nat)
    (expandOne : String → List String → Except ParseError (urlOptions × List String))
    (hP : PartOK expandOne) (hE : EndsOK conf S k expandOne) :
    ∀ (body : urlOptions) (used : List String),
      (∀ o ∈ body, o.Name = "preset" → ∀ m ∈ o.Args, m ∈ S ∨ m ∈ used) →
      RefClosed conf used S → freeCount conf used ≤ k →
      (∃ flat used1, expandOptions expandOne body used = .ok (flat, used1) ∧
        ∀ x ∈ used1, x ∈ used ∨ x ∈ S) ∨
      (∃ m ∈ S, ¬ Known conf m ∧
        expandOptions expandOne body used = .error (.unknownPreset m)) := by
  intro body
  induction body with
  | nil => intro used _ _ _; exact Or.inl ⟨[], used, rfl, fun x hx => Or.inl hx⟩
  | cons o os ih =>
    intro used hb hc hf
    by_cases hname : o.Name = "preset"
    · rcases expandNames_ends conf S k expandOne hP hE o.Args used
          (hb o (List.mem_cons_self _ _) hname) hc hf with
        ⟨a, u1, h1, s1⟩ | ⟨m, hm, hk, he⟩
      · have hsub := (expandNames_part expandOne hP o.Args used a u1 h1).1.subset
        rcases ih u1
            (fun x hx hxn y hy =>
              (hb x (List.mem_cons_of_mem _ hx) hxn y hy).imp id fun z => hsub z)
            (RefClosed_mono conf used u1 S hsub hc)
            ((freeCount_mono conf used u1 hsub).trans hf) with
          ⟨b, u2, h2, s2⟩ | ⟨m, hm, hk, he⟩
        · refine Or.inl ⟨a ++ b, u2, by simp only [expandOptions, hname, if_true, h1, h2],
            fun x hx => ?_⟩
          rcases s2 x hx with hx1 | hx1
          · exact s1 x hx1
          · exact Or.inr hx1
        · exact Or.inr ⟨m, hm, hk, by simp only [expandOptions, hname, if_true, h1, he]⟩
      · exact Or.inr ⟨m, hm, hk, by simp only [expandOptions, hname, if_true, he]⟩
    · rcases ih used (fun x hx => hb x (List.mem_cons_of_mem _ hx)) hc hf with
        ⟨b, u2, h2, s2⟩ | ⟨m, hm, hk, he⟩
      · exact Or.inl ⟨o :: b, u2, by simp only [expandOptions, hname, if_false, h2], s2⟩
      · exact Or.inr ⟨m, hm, hk, by simp only [expandOptions, hname, if_false, he]⟩

theorem expandPreset_ends (conf : Config) (S : List String) :
    ∀ k, EndsOK conf S k (expandPreset conf k) := by
  have base : ∀ (k : Nat) (n : String) (used : List String), (n ∈ S ∨ n ∈ used) →
      n ∉ used → conf.Presets.lookup n = none →
      (∃ flat used1, expandPreset conf k n used = .ok (flat, used1) ∧
        ∀ x ∈ used1, x ∈ used ∨ x ∈ S) ∨
      (∃ m ∈ S, ¬ Known conf m ∧ expandPreset conf k n used = .error (.unknownPreset m)) := by
    intro k n used hn hmem hl
    have hnS : n ∈ S := hn.resolve_right hmem
    cases hi : conf.IgnoreUnknownPresets with
    | true =>
      refine Or.inl ⟨[], used ++ [n], ?_, fun x hx => ?_⟩
      · unfold expandPreset
        simp only [hmem, if_false, hl, hi, if_true]
      · rcases List.mem_append.1 hx with hx | hx
        · exact Or.inl hx
        · rw [List.mem_singleton.1 hx]; exact Or.inr hnS
    | false =>
      refine Or.inr ⟨n, hnS, ?_, ?_⟩
      · unfold Known
        rw [hi, hl]
        simp
      · unfold expandPreset
        simp only [hmem, if_false, hl, hi, Bool.false_eq_true]
  intro k
  induction k with
  | zero =>
    intro n used hn hc hf
    by_cases hmem : n ∈ used
    · refine Or.inl ⟨[], used, ?_, fun x hx => Or.inl hx⟩
      unfold expandPreset
      rw [if_pos hmem]
    · cases hl : conf.Presets.lookup n with
      | none => exact base 0 n used hn hmem hl
      | some body =>
        have := freeCount_concat conf used n body hl hmem
        omega
  | succ k ih =>
    intro n used hn hc hf
    by_cases hmem : n ∈ used
    · refine Or.inl ⟨[], used, ?_, fun x hx => Or.inl hx⟩
      unfold expandPreset
      rw [if_pos hmem]
    · cases hl : conf.Presets.lookup n with
      | none => exact base (k + 1) n used hn hmem hl
      | some body =>
        have hnS : n ∈ S := hn.resolve_right hmem
        have hlt := freeCount_concat conf used n body hl hmem
        have hsub : used ⊆ used ++ [n] := List.subset_append_left _ _
        have he : expandPreset conf (k + 1) n used =
            expandOptions (expandPreset conf k) body (used ++ [n]) := by
          rw [expandPreset]
          simp only [hmem, if_false, hl]
        rw [he]
        rcases expandOptions_ends conf S k _ (expandPreset_part conf k) ih body (used ++ [n])
            (fun o ho hname m hm => (hc n hnS body hl o ho hname m hm).imp id fun z => hsub z)
            (RefClosed_mono conf used _ S hsub hc) (by omega) with
          ⟨flat, u1, h1, s1⟩ | ⟨m, hm, hk, he1⟩
        · refine Or.inl ⟨flat, u1, h1, fun x hx => ?_⟩
          rcases s1 x hx with hx1 | hx1
          · rcases List.mem_append.1 hx1 with hx2 | hx2
            · exact Or.inl hx2
            · rw [List.mem_singleton.1 hx2]; exact Or.inr hnS
          · exact Or.inr hx1
        · exact Or.inr ⟨m, hm, hk, he1⟩

theorem expand_ends (conf : Config) (S names used : List String)
    (hn : ∀ n ∈ names, n ∈ S ∨ n ∈ used) (hc : RefClosed conf used S) :
    (∃ flat used1, expand conf names used = .ok (flat, used1) ∧
      ∀ x ∈ used1, x ∈ used ∨ x ∈ S) ∨
    (∃ m ∈ S, ¬ Known conf m ∧ expand conf names used = .error (.unknownPreset m)) :=
  expandNames_ends conf S _ _ (expandPreset_part conf _) (expandPreset_ends conf S _) names used
    hn hc (freeCount_le conf used)

theorem RefClosed_referred (conf : Config) (names used : List String) :
    RefClosed conf used (names ++ referred conf) := by
  intro n _ body hl o ho hname m hm
  refine Or.inl (List.mem_append_right _ ?_)
  unfold referred
  rw [List.mem_flatMap]
  refine ⟨(n, body), lookup_mem _ n body hl, ?_⟩
  rw [List.mem_flatMap]
  exact ⟨o, ho, by rw [if_pos hname]; exact hm⟩

theorem expand_total (conf : Config) (names used : List String) :
    (∃ flat used1, expand conf names used = .ok (flat, used1)) ∨
    (∃ m, ¬ Known conf m ∧ expand conf names used = .error (.unknownPreset m)) := by
  rcases expand_ends conf (names ++ referred conf) names used
      (fun n hn => Or.inl (List.mem_append_left _ hn))
      (RefClosed_referred conf names used) with ⟨flat, used1, h, -⟩ | ⟨m, -, hk, he⟩
  · exact Or.inl ⟨flat, used1, h⟩
  · exact Or.inr ⟨m, hk, he⟩

theorem expand_part (conf : Config) (names used : List String) (flat : urlOptions)
    (used1 : List String) (h : expand conf names used = .ok (flat, used1)) :
    used <+: used1 ∧ (∀ n ∈ names, n ∈ used1) ∧ (used.Nodup → used1.Nodup) ∧
      ∀ o ∈ flat, o.Name ≠ "preset" :=
  expandNames_part _ (expandPreset_part conf _) names used flat used1 h

theorem Added_trans (conf : Config) (u0 u1 u2 : List String) (hsub : u1 ⊆ u2)
    (h1 : Added conf u0 u1) (h2 : Added conf u1 u2) : Added conf u0 u2 := by
  intro n hn
  rcases h2 n hn with hn1 | hn1
  · rcases h1 n hn1 with hn0 | ⟨hk, hr⟩
    · exact Or.inl hn0
    · exact Or.inr ⟨hk, fun body hl o ho hname m hm => hsub (hr body hl o ho hname m hm)⟩
  · exact Or.inr hn1

theorem expandNames_added (conf : Config)
    (expandOne : String → List String → Except ParseError (urlOptions × List String))
    (hP : PartOK expandOne)
    (hA : ∀ n used flat used1, expandOne n used = .ok (flat, used1) → Added conf used used1) :
    ∀ (names used : List String) (flat : urlOptions) (used1 : List String),
      expandNames expandOne names used = .ok (flat, used1) → Added conf used used1 := by
  intro names
  induction names with
  | nil => intro used flat used1 h; cases h; exact fun n hn => Or.inl hn
  | cons n ns ih =>
    intro used flat used1 h
    unfold expandNames at h
    split at h
    · cases h
    · next a u1 h1 =>
      split at h
      · cases h
      · next b u2 h2 =>
        have e : u2 = used1 := (Prod.mk.inj (Except.ok.inj h)).2
        rw [e] at h2
        exact Added_trans conf used u1 used1
          (expandNames_part expandOne hP ns u1 b used1 h2).1.subset
          (hA n used a u1 h1) (ih u1 b used1 h2)

theorem expandOptions_added (conf : Config)
    (expandOne : String → List String → Except ParseError (urlOptions × List String))
    (hP : PartOK expandOne)
    (hA : ∀ n used flat used1, expandOne n used = .ok (flat, used1) → Added conf used used1) :
    ∀ (body : urlOptions) (used : List String) (flat : urlOptions) (used1 : List String),
      expandOptions expandOne body used = .ok (flat, used1) →
      Added conf used used1 ∧
        ∀ o ∈ body, o.Name = "preset" → ∀ m ∈ o.Args, m ∈ used1 := by
  intro body
  induction body with
  | nil =>
    intro used flat used1 h
    cases h
    exact ⟨fun n hn => Or.inl hn, by simp⟩
  | cons o os ih =>
    intro used flat used1 h
    unfold expandOptions at h
    split at h
    · next hname =>
      split at h
      · cases h
      · next a u1 h1 =>
        split at h
        · cases h
        · next b u2 h2 =>
          have e : u2 = used1 := (Prod.mk.inj (Except.ok.inj h)).2
          rw [e] at h2
          obtain ⟨-, m1, -, -⟩ := expandNames_part expandOne hP o.Args used a u1 h1
          obtain ⟨p2, -, -⟩ := expandOptions_part expandOne hP os u1 b used1 h2
          obtain ⟨a2, r2⟩ := ih u1 b used1 h2
          refine ⟨Added_trans conf used u1 used1 p2.subset
            (expandNames_added conf expandOne hP hA o.Args used a u1 h1) a2, ?_⟩
          intro x hx hxn m hm
          rcases List.mem_cons.1 hx with hx | hx
          · rw [hx] at hm; exact p2.subset (m1 m hm)
          · exact r2 x hx hxn m hm
    · next hname =>
      split at h
      · cases h
      · next b u2 h2 =>
        have e : u2 = used1 := (Prod.mk.inj (Except.ok.inj h)).2
        rw [e] at h2
        obtain ⟨a2, r2⟩ := ih used b used1 h2
        refine ⟨a2, ?_⟩
        intro x hx hxn m hm
        rcases List.mem_cons.1 hx with hx | hx
        · rw [hx] at hxn; exact absurd hxn hname
        · exact r2 x hx hxn m hm

theorem expandPreset_added (conf : Config) :
    ∀ (k : Nat) (n : String) (used : List String) (flat : urlOptions) (used1 : List String),
      expandPreset conf k n used = .ok (flat, used1) → Added conf used used1 := by
  have base : ∀ (n : String) (used : List String), conf.Presets.lookup n = none →
      conf.IgnoreUnknownPresets = true → Added conf used (used ++ [n]) := by
    intro n used hl hi x hx
    rcases List.mem_append.1 hx with hx | hx
    · exact Or.inl hx
    · rw [List.mem_singleton.1 hx]
      exact Or.inr ⟨Or.inl hi, fun body hb => by rw [hl] at hb; cases hb⟩
  intro k
  induction k with
  | zero =>
    intro n used flat used1 h
    unfold expandPreset at h
    split at h
    · cases h; exact fun x hx => Or.inl hx
    · split at h
      · next hl =>
        split at h
        · next hi => cases h; exact base n used hl hi
        · cases h
      · cases h
  | succ k ih =>
    intro n used flat used1 h
    unfold expandPreset at h
    split at h
    · cases h; exact fun x hx => Or.inl hx
    · split at h
      · next hl =>
        split at h
        · next hi => cases h; exact base n used hl hi
        · cases h
      · next body hl =>
        obtain ⟨a1, r1⟩ := expandOptions_added conf _ (expandPreset_part conf k) ih body
          (used ++ [n]) flat used1 h
        intro x hx
        rcases a1 x hx with hx1 | hx1
        · rcases List.mem_append.1 hx1 with hx2 | hx2
          · exact Or.inl hx2
          · rw [List.mem_singleton.1 hx2]
            refine Or.inr ⟨Or.inr (by rw [hl]; rfl), fun body1 hb => ?_⟩
            rw [hl] at hb
            cases hb
            exact r1
        · exact Or.inr hx1

theorem expand_added (conf : Config) (names used : List String) (flat : urlOptions)
    (used1 : List String) (h : expand conf names used = .ok (flat, used1)) :
    Added conf used used1 :=
  expandNames_added conf _ (expandPreset_part conf _)
    (expandPreset_added conf _) names used flat used1 h

theorem RefClosed_of_entries (conf : Config) (used S : List String)
    (h : ∀ e ∈ conf.Presets, e.1 ∈ S →
      ∀ o ∈ e.2, o.Name = "preset" → ∀ m ∈ o.Args, m ∈ S ∨ m ∈ used) :
    RefClosed conf used S :=
  fun n hn body hl o ho hname m hm => h (n, body) (lookup_mem _ n body hl) hn o ho hname m hm

/-! ## Lemmas on `UsedPresets` -/

theorem setField_UsedPresets (env : Env) (f : Field) (po po1 : processingOptions)
    (args : List String) (h : setField env f po args = .ok po1) :
    po1.UsedPresets = po.UsedPresets := by
  cases f <;>
    simp only [setField, applyResizingTypeOption, applyWidthOption, applyHeightOption,
      applyGravityOption, applyEnlargeOption, applyFormatOption, applyQualityOption,
      applyBackgroundOption, applyBlurOption, applySharpenOption, applyDprOption,
      applyWatermarkOption, applyCacheBusterOption] at h <;>
    (repeat' split at h) <;> first | (cases h; rfl) | cases h

theorem applyURLOption_UsedPresets (env : Env) (src : Source) (st st1 : State) (o : urlOption)
    (h : applyURLOption env src st o = .ok st1) :
    st1.po.UsedPresets = st.po.UsedPresets := by
  unfold applyURLOption at h
  split at h
  · cases h
  · next f _ =>
    split at h
    · cases h
    · next po hpo =>
      split at h
      · cases h
        exact setField_UsedPresets env f st.po po o.Args hpo
      · cases h
        rfl

theorem applyEach_UsedPresets (env : Env) (src : Source) :
    ∀ (opts : urlOptions) (st st1 : State), applyEach env src st opts = .ok st1 →
      st1.po.UsedPresets = st.po.UsedPresets := by
  intro opts
  induction opts with
  | nil => intro st st1 h; cases h; rfl
  | cons o os ih =>
    intro st st1 h
    unfold applyEach at h
    split at h
    · cases h
    · next st2 h2 =>
      exact (ih st2 st1 h).trans (applyURLOption_UsedPresets env src st st2 o h2)

theorem applyURLOptions_UsedPresets (env : Env) (conf : Config) (src : Source) :
    ∀ (opts : urlOptions) (st st1 : State), applyURLOptions env conf src st opts = .ok st1 →
      st.po.UsedPresets <+: st1.po.UsedPresets ∧
        (st.po.UsedPresets.Nodup → st1.po.UsedPresets.Nodup) := by
  intro opts
  induction opts with
  | nil => intro st st1 h; cases h; exact ⟨List.prefix_refl _, id⟩
  | cons o os ih =>
    intro st st1 h
    unfold applyURLOptions at h
    split at h
    · split at h
      · cases h
      · next flat used hx =>
        split at h
        · cases h
        · next st2 h2 =>
          obtain ⟨p, -, d, -⟩ := expand_part conf o.Args st.po.UsedPresets flat used hx
          have e2 : st2.po.UsedPresets = used := applyEach_UsedPresets env .preset flat _ st2 h2
          obtain ⟨p3, d3⟩ := ih st2 st1 h
          rw [e2] at p3 d3
          exact ⟨p.trans p3, fun hd => d3 (d hd)⟩
    · split at h
      · exact ih st st1 h
      · split at h
        · cases h
        · next st2 h2 =>
          obtain ⟨p3, d3⟩ := ih st2 st1 h
          rw [applyURLOption_UsedPresets env src st st2 o h2] at p3 d3
          exact ⟨p3, d3⟩

theorem hintWidth_UsedPresets (st : State) (value : Option String) :
    (hintWidth st value).po.UsedPresets = st.po.UsedPresets := by
  unfold hintWidth
  split
  · rfl
  · split
    · rfl
    · split <;> rfl

theorem hintDpr_UsedPresets (env : Env) (st : State) (value : Option String) :
    (hintDpr env st value).po.UsedPresets = st.po.UsedPresets := by
  unfold hintDpr
  split
  · rfl
  · split
    · rfl
    · split <;> rfl

theorem applyClientHints_UsedPresets (env : Env) (conf : Config)
    (header : List (String × String)) (st : State) :
    (applyClientHints env conf header st).po.UsedPresets = st.po.UsedPresets := by
  unfold applyClientHints
  split
  · rw [hintWidth_UsedPresets, hintDpr_UsedPresets, hintWidth_UsedPresets]
  · rfl

theorem resolveExplicit_Nodup (env : Env) (conf : Config) (req : Request) (st : State)
    (h : resolveExplicit env conf req = .ok st) : st.po.UsedPresets.Nodup := by
  unfold resolveExplicit at h
  split at h
  · cases h
  · split at h
    · cases h
    · next st3 h3 =>
      refine (applyURLOptions_UsedPresets env conf .query _ st3 st h).2 ?_
      unfold resolvePath at h3
      split at h3
      · cases h3
      · next st1 h1 =>
        split at h3
        · cases h3
        · next st2 h2 =>
          have n1 : st1.po.UsedPresets.Nodup := by
            unfold applyDefaultPreset at h1
            split at h1
            · cases h1; exact List.nodup_nil
            · exact (applyURLOptions_UsedPresets env conf .preset _ _ st1 h1).2 List.nodup_nil
          have n2 : st2.po.UsedPresets.Nodup := by
            unfold applyExtension at h2
            split at h2
            · rw [applyURLOption_UsedPresets env .extension st1 st2 _ h2]; exact n1
            · cases h2; exact n1
          cases hopts : req.options with
          | legacy a b c d e =>
            rw [hopts] at h3
            exact (applyURLOptions_UsedPresets env conf .positional _ st2 st3 h3).2 n2
          | advanced opts =>
            rw [hopts] at h3
            exact (applyURLOptions_UsedPresets env conf .path _ st2 st3 h3).2 n2

theorem parsePath_Nodup (env : Env) (conf : Config) (req : Request) (ctx : Context)
    (h : parsePath env conf req = .ok ctx) : ctx.po.UsedPresets.Nodup := by
  unfold parsePath at h
  split at h
  · cases h
  · next po hpo =>
    split at h
    · cases h
    · cases h
      unfold resolveOptions at hpo
      split at hpo
      · cases hpo
      · next st hst =>
        cases hpo
        rw [applyClientHints_UsedPresets]
        exact resolveExplicit_Nodup env conf req st hst

/-! ## Lemmas on the frame of an instruction -/

theorem setField_putField (env : Env) (g : Field) (po po1 : processingOptions)
    (args : List String) (h : setField env g po args = .ok po1) :
    po1 = putField g po po1 := by
  cases g <;>
    simp only [setField, applyResizingTypeOption, applyWidthOption, applyHeightOption,
      applyGravityOption, applyEnlargeOption, applyFormatOption, applyQualityOption,
      applyBackgroundOption, applyBlurOption, applySharpenOption, applyDprOption,
      applyWatermarkOption, applyCacheBusterOption] at h <;>
    (repeat' split at h) <;> first | (cases h; rfl) | cases h

theorem fieldView_putField (f g : Field) (po q : processingOptions) (h : g ≠ f) :
    fieldView f (putField g po q) = fieldView f po := by
  cases f <;> cases g <;> first | rfl | exact absurd rfl h

theorem setField_fieldView (env : Env) (f g : Field) (po po1 : processingOptions)
    (args : List String) (h : setField env g po args = .ok po1) (hne : g ≠ f) :
    fieldView f po1 = fieldView f po := by
  rw [setField_putField env g po po1 args h]
  exact fieldView_putField f g po po1 hne

theorem applyURLOption_frame (env : Env) (src : Source) (st st1 : State) (o : urlOption)
    (f : Field) (h : applyURLOption env src st o = .ok st1)
    (hf : optionField o.Name ≠ some f ∨ src.rank f < (st.setBy f).rank f) :
    fieldView f st1.po = fieldView f st.po ∧ st1.setBy f = st.setBy f := by
  unfold applyURLOption at h
  split at h
  · cases h
  · next g hg =>
    split at h
    · cases h
    · next po hpo =>
      split at h
      · next hrank =>
        cases h
        have hne : g ≠ f := by
          intro hgf
          rw [hgf] at hg hrank
          rcases hf with hf | hf
          · exact hf hg
          · omega
        refine ⟨setField_fieldView env f g st.po po o.Args hpo hne, ?_⟩
        rw [State.write_setBy, if_neg (fun hc => hne hc.symm)]
      · cases h
        exact ⟨rfl, rfl⟩

theorem applyEach_frame (env : Env) (src : Source) (f : Field) :
    ∀ (opts : urlOptions) (st st1 : State), applyEach env src st opts = .ok st1 →
      (∀ o ∈ opts, optionField o.Name ≠ some f) →
      fieldView f st1.po = fieldView f st.po ∧ st1.setBy f = st.setBy f := by
  intro opts
  induction opts with
  | nil => intro st st1 h _; cases h; exact ⟨rfl, rfl⟩
  | cons o os ih =>
    intro st st1 h hu
    unfold applyEach at h
    split at h
    · cases h
    · next st2 h2 =>
      obtain ⟨a1, a2⟩ := applyURLOption_frame env src st st2 o f h2
        (Or.inl (hu o (List.mem_cons_self _ _)))
      obtain ⟨b1, b2⟩ := ih st2 st1 h (fun x hx => hu x (List.mem_cons_of_mem _ hx))
      exact ⟨b1.trans a1, b2.trans a2⟩

theorem applyURLOptions_frame (env : Env) (conf : Config) (src : Source) (f : Field) :
    ∀ (opts : urlOptions) (st st1 : State), applyURLOptions env conf src st opts = .ok st1 →
      "default" ∈ st.po.UsedPresets → Untouched conf f opts →
      fieldView f st1.po = fieldView f st.po ∧ st1.setBy f = st.setBy f := by
  intro opts
  induction opts with
  | nil => intro st st1 h _ _; cases h; exact ⟨rfl, rfl⟩
  | cons o os ih =>
    intro st st1 h hd hu
    have hrest : Untouched conf f os := fun x hx => hu x (List.mem_cons_of_mem _ hx)
    unfold applyURLOptions at h
    split at h
    · next hname =>
      split at h
      · cases h
      · next flat used hx =>
        split at h
        · cases h
        · next st2 h2 =>
          obtain ⟨p, -, -, -⟩ := expand_part conf o.Args st.po.UsedPresets flat used hx
          have e2 : st2.po.UsedPresets = used := applyEach_UsedPresets env .preset flat _ st2 h2
          obtain ⟨a1, a2⟩ := applyEach_frame env .preset f flat _ st2 h2
            ((hu o (List.mem_cons_self _ _)).1 hname _ flat used hd hx)
          obtain ⟨b1, b2⟩ := ih st2 st1 h (by rw [e2]; exact p.subset hd) hrest
          exact ⟨b1.trans (a1.trans (by cases f <;> rfl)), b2.trans a2⟩
    · next hname =>
      split at h
      · exact ih st st1 h hd hrest
      · split at h
        · cases h
        · next st2 h2 =>
          obtain ⟨a1, a2⟩ := applyURLOption_frame env src st st2 o f h2
            (Or.inl ((hu o (List.mem_cons_self _ _)).2 hname))
          obtain ⟨b1, b2⟩ := ih st2 st1 h
            (by rw [applyURLOption_UsedPresets env src st st2 o h2]; exact hd) hrest
          exact ⟨b1.trans a1, b2.trans a2⟩

/-! ## Lemmas on precedence -/

theorem applyURLOption_rank (env : Env) (src : Source) (st st1 : State) (o : urlOption)
    (h : applyURLOption env src st o = .ok st1) :
    (∀ f, (st.setBy f).rank f ≤ (st1.setBy f).rank f) ∧
      ∀ f, optionField o.Name = some f → src.rank f ≤ (st1.setBy f).rank f := by
  unfold applyURLOption at h
  split at h
  · cases h
  · next g hg =>
    split at h
    · cases h
    · next po hpo =>
      split at h
      · next hrank =>
        cases h
        constructor
        · intro f
          rw [State.write_setBy]
          split
          · next hfg => rw [hfg]; exact hrank
          · exact Nat.le_refl _
        · intro f hf
          rw [hg] at hf
          cases hf
          rw [State.write_setBy, if_pos rfl]
      · next hrank =>
        cases h
        refine ⟨fun f => Nat.le_refl _, fun f hf => ?_⟩
        rw [hg] at hf
        cases hf
        omega

theorem applyEach_rank (env : Env) (src : Source) :
    ∀ (opts : urlOptions) (st st1 : State), applyEach env src st opts = .ok st1 →
      ∀ f, (st.setBy f).rank f ≤ (st1.setBy f).rank f := by
  intro opts
  induction opts with
  | nil => intro st st1 h f; cases h; exact Nat.le_refl _
  | cons o os ih =>
    intro st st1 h f
    unfold applyEach at h
    split at h
    · cases h
    · next st2 h2 =>
      exact ((applyURLOption_rank env src st st2 o h2).1 f).trans (ih st2 st1 h f)

theorem applyURLOptions_rank (env : Env) (conf : Config) (src : Source) :
    ∀ (opts : urlOptions) (st st1 : State), applyURLOptions env conf src st opts = .ok st1 →
      ∀ f, (st.setBy f).rank f ≤ (st1.setBy f).rank f := by
  intro opts
  induction opts with
  | nil => intro st st1 h f; cases h; exact Nat.le_refl _
  | cons o os ih =>
    intro st st1 h f
    unfold applyURLOptions at h
    split at h
    · split at h
      · cases h
      · next flat used hx =>
        split at h
        · cases h
        · next st2 h2 =>
          exact (applyEach_rank env .preset flat _ st2 h2 f).trans (ih st2 st1 h f)
    · split at h
      · exact ih st st1 h f
      · split at h
        · cases h
        · next st2 h2 =>
          exact ((applyURLOption_rank env src st st2 o h2).1 f).trans (ih st2 st1 h f)

theorem applyURLOptions_rank_target (env : Env) (conf : Config) (src : Source)
    (hno : conf.OnlyPresets = false) (o : urlOption) (f : Field)
    (hname : o.Name ≠ "preset") (hf : optionField o.Name = some f) :
    ∀ (opts : urlOptions) (st st1 : State), o ∈ opts →
      applyURLOptions env conf src st opts = .ok st1 →
      src.rank f ≤ (st1.setBy f).rank f := by
  intro opts
  induction opts with
  | nil => intro st st1 hmem; cases hmem
  | cons x xs ih =>
    intro st st1 hmem h
    by_cases hx : o = x
    · subst hx
      unfold applyURLOptions at h
      rw [if_neg hname, hno] at h
      simp only [Bool.false_eq_true, if_false] at h
      split at h
      · cases h
      · next st2 h2 =>
        exact ((applyURLOption_rank env src st st2 o h2).2 f hf).trans
          (applyURLOptions_rank env conf src xs st2 st1 h f)
    · have hmem2 : o ∈ xs := by
        rcases List.mem_cons.1 hmem with hm | hm
        · exact absurd hm hx
        · exact hm
      unfold applyURLOptions at h
      split at h
      · split at h
        · cases h
        · split at h
          · cases h
          · next st2 _ => exact ih st2 st1 hmem2 h
      · split at h
        · exact ih st st1 hmem2 h
        · split at h
          · cases h
          · next st2 _ => exact ih st2 st1 hmem2 h

theorem applyPathOptions_eq (env : Env) (conf : Config) (st : State) (p : pathOptions) :
    applyPathOptions env conf st p = applyURLOptions env conf p.src st p.list := by
  cases p <;> rfl

theorem resolveExplicit_stages (env : Env) (conf : Config) (req : Request) (st : State)
    (h : resolveExplicit env conf req = .ok st) :
    ∃ st1 st2 st3, applyDefaultPreset env conf (State.init conf req.header) = .ok st1 ∧
      applyExtension env st1 req.source = .ok st2 ∧
      applyURLOptions env conf req.options.src st2 req.options.list = .ok st3 ∧
      applyURLOptions env conf .query st3 req.query = .ok st := by
  unfold resolveExplicit at h
  split at h
  · cases h
  · split at h
    · cases h
    · next st3 h3 =>
      unfold resolvePath at h3
      split at h3
      · cases h3
      · next st1 h1 =>
        split at h3
        · cases h3
        · next st2 h2 =>
          rw [applyPathOptions_eq] at h3
          exact ⟨st1, st2, st3, h1, h2, h3, h⟩

theorem applyDefaultPreset_used (env : Env) (conf : Config) (st st1 : State)
    (h : applyDefaultPreset env conf st = .ok st1)
    (hd : (conf.Presets.lookup "default").isSome) : "default" ∈ st1.po.UsedPresets := by
  unfold applyDefaultPreset at h
  split at h
  · next hl => rw [hl] at hd; cases hd
  · unfold applyURLOptions at h
    rw [if_pos rfl] at h
    split at h
    · cases h
    · next flat used hx =>
      split at h
      · cases h
      · next st2 h2 =>
        unfold applyURLOptions at h
        have e : st2 = st1 := Except.ok.inj h
        rw [← e, applyEach_UsedPresets env .preset flat _ st2 h2]
        exact (expand_part conf _ _ flat used hx).2.1 "default" (List.mem_singleton_self _)

theorem applyDefaultPreset_setBy (env : Env) (conf : Config) (header : List (String × String))
    (st1 : State) (h : applyDefaultPreset env conf (State.init conf header) = .ok st1) :
    (∀ f, st1.setBy f = .unset ∨ st1.setBy f = .preset) ∧
      ∀ f, st1.setBy f = .preset → (conf.Presets.lookup "default").isSome := by
  constructor
  · intro f
    unfold applyDefaultPreset at h
    split at h
    · cases h; exact Or.inl rfl
    · rcases applyURLOptions_setBy env conf .preset _ _ st1 h f with h2 | h2 | h2
      · exact Or.inl h2
      · exact Or.inr h2
      · exact Or.inr h2
  · intro f hf
    unfold applyDefaultPreset at h
    split at h
    · cases h; cases hf
    · next hl => rw [hl]; rfl

theorem hintWidth_frame (st : State) (value : Option String) (f : Field)
    (hf : st.setBy f ≠ .unset) :
    fieldView f (hintWidth st value).po = fieldView f st.po ∧
      (hintWidth st value).setBy f = st.setBy f := by
  unfold hintWidth
  split
  · exact ⟨rfl, rfl⟩
  · split
    · exact ⟨rfl, rfl⟩
    · split
      · next hw =>
        have hne : f ≠ .width := fun hc => hf (hc ▸ hw)
        constructor
        · cases f <;> first | rfl | exact absurd rfl hne
        · rw [State.write_setBy, if_neg hne]
      · exact ⟨rfl, rfl⟩

theorem hintDpr_frame (env : Env) (st : State) (value : Option String) (f : Field)
    (hf : st.setBy f ≠ .unset) :
    fieldView f (hintDpr env st value).po = fieldView f st.po ∧
      (hintDpr env st value).setBy f = st.setBy f := by
  unfold hintDpr
  split
  · exact ⟨rfl, rfl⟩
  · split
    · exact ⟨rfl, rfl⟩
    · split
      · next hw =>
        have hne : f ≠ .dpr := fun hc => hf (hc ▸ hw.2)
        constructor
        · cases f <;> first | rfl | exact absurd rfl hne
        · rw [State.write_setBy, if_neg hne]
      · exact ⟨rfl, rfl⟩

theorem applyClientHints_frame (env : Env) (conf : Config) (header : List (String × String))
    (st : State) (f : Field) (hf : st.setBy f ≠ .unset) :
    fieldView f (applyClientHints env conf header st).po = fieldView f st.po := by
  unfold applyClientHints
  split
  · obtain ⟨a1, a2⟩ := hintWidth_frame st (headerGet header "Width") f hf
    obtain ⟨b1, b2⟩ := hintDpr_frame env _ (headerGet header "DPR") f (by rw [a2]; exact hf)
    obtain ⟨c1, -⟩ := hintWidth_frame _ (headerGet header "Viewport-Width") f
      (by rw [b2, a2]; exact hf)
    exact c1.trans (b1.trans a1)
  · rfl

/-! ## Lemmas on the values that the request writes -/

theorem Explicit_congr (env : Env) (all : urlOptions) (f : Field) (st st1 : State)
    (hv : fieldView f st1.po = fieldView f st.po) (hs : st1.setBy f = st.setBy f)
    (h : Explicit env all f st) : Explicit env all f st1 := by
  intro h3
  rw [hs] at h3
  obtain ⟨o, ho, hn, hf, po0, po1, hset, hview⟩ := h h3
  exact ⟨o, ho, hn, hf, po0, po1, hset, hv.trans hview⟩

theorem applyURLOption_explicit (env : Env) (src : Source) (st st1 : State) (o : urlOption)
    (all : urlOptions) (f : Field) (h : applyURLOption env src st o = .ok st1)
    (hsrc : src.rank f < 3 ∨ (o ∈ all ∧ o.Name ≠ "preset"))
    (hinv : Explicit env all f st) : Explicit env all f st1 := by
  by_cases hof : optionField o.Name = some f
  · unfold applyURLOption at h
    split at h
    · cases h
    · next g hg =>
      rw [hof] at hg
      cases hg
      split at h
      · cases h
      · next po hpo =>
        split at h
        · cases h
          intro h3
          rw [State.write_setBy, if_pos rfl] at h3
          rcases hsrc with hlow | ⟨hmem, hname⟩
          · omega
          · exact ⟨o, hmem, hname, hof, st.po, po, hpo, rfl⟩
        · cases h
          exact hinv
  · obtain ⟨a1, a2⟩ := applyURLOption_frame env src st st1 o f h (Or.inl hof)
    exact Explicit_congr env all f st st1 a1 a2 hinv

theorem applyEach_explicit (env : Env) (all : urlOptions) (f : Field) :
    ∀ (opts : urlOptions) (st st1 : State), applyEach env .preset st opts = .ok st1 →
      Explicit env all f st → Explicit env all f st1 := by
  intro opts
  induction opts with
  | nil => intro st st1 h hinv; cases h; exact hinv
  | cons o os ih =>
    intro st st1 h hinv
    unfold applyEach at h
    split at h
    · cases h
    · next st2 h2 =>
      exact ih st2 st1 h
        (applyURLOption_explicit env .preset st st2 o all f h2
          (Or.inl (show 2 < 3 by decide)) hinv)

theorem applyURLOptions_explicit (env : Env) (conf : Config) (src : Source)
    (all : urlOptions) (f : Field) :
    ∀ (opts : urlOptions) (st st1 : State), (∀ o ∈ opts, o ∈ all) →
      applyURLOptions env conf src st opts = .ok st1 →
      Explicit env all f st → Explicit env all f st1 := by
  intro opts
  induction opts with
  | nil => intro st st1 _ h hinv; cases h; exact hinv
  | cons o os ih =>
    intro st st1 hsub h hinv
    have hrest : ∀ x ∈ os, x ∈ all := fun x hx => hsub x (List.mem_cons_of_mem _ hx)
    unfold applyURLOptions at h
    split at h
    · split at h
      · cases h
      · next flat used hx =>
        split at h
        · cases h
        · next st2 h2 =>
          refine ih st2 st1 hrest h (applyEach_explicit env all f flat _ st2 h2 ?_)
          exact Explicit_congr env all f st _ (by cases f <;> rfl) rfl hinv
    · next hname =>
      split at h
      · exact ih st st1 hrest h hinv
      · split at h
        · cases h
        · next st2 h2 =>
          exact ih st2 st1 hrest h
            (applyURLOption_explicit env src st st2 o all f h2
              (Or.inr ⟨hsub o (List.mem_cons_self _ _), hname⟩) hinv)

theorem Source.rank_request (p : pathOptions) (f : Field) : 3 ≤ p.src.rank f := by
  cases p <;> cases f <;> simp [pathOptions.src, Source.rank]

theorem Untouched_append (conf : Config) (f : Field) (xs ys : urlOptions)
    (h : Untouched conf f (xs ++ ys)) : Untouched conf f xs ∧ Untouched conf f ys :=
  ⟨fun o ho => h o (List.mem_append_left _ ho), fun o ho => h o (List.mem_append_right _ ho)⟩

theorem applyExtension_frame (env : Env) (st1 st2 : State) (source : sourceURL) (f : Field)
    (h : applyExtension env st1 source = .ok st2) :
    (2 ≤ (st1.setBy f).rank f →
      fieldView f st2.po = fieldView f st1.po ∧ st2.setBy f = st1.setBy f) ∧
    (st2.setBy f).rank f ≤ max 1 ((st1.setBy f).rank f) ∧
    st2.po.UsedPresets = st1.po.UsedPresets := by
  unfold applyExtension at h
  split at h
  · refine ⟨fun h2 => applyURLOption_frame env .extension st1 st2 _ f h (Or.inr ?_), ?_,
      applyURLOption_UsedPresets env .extension st1 st2 _ h⟩
    · exact Nat.lt_of_lt_of_le (show 1 < 2 by decide) h2
    · rcases applyURLOption_setBy env .extension st1 st2 _ h f with e | e
      · rw [e]; exact le_max_right _ _
      · rw [e]; exact le_max_left _ _
  · cases h
    exact ⟨fun _ => ⟨rfl, rfl⟩, le_max_right _ _, rfl⟩

theorem Source.rank_unset (s : Source) (f : Field) (h : 3 ≤ s.rank f) : s ≠ .unset := by
  intro e
  rw [e] at h
  exact absurd h (show ¬ 3 ≤ 0 by decide)

theorem parsePath_stages (env : Env) (conf : Config) (req : Request) (ctx : Context)
    (h : parsePath env conf req = .ok ctx) :
    ∃ st1 st2 st3 st, applyDefaultPreset env conf (State.init conf req.header) = .ok st1 ∧
      applyExtension env st1 req.source = .ok st2 ∧
      applyURLOptions env conf req.options.src st2 req.options.list = .ok st3 ∧
      applyURLOptions env conf .query st3 req.query = .ok st ∧
      ctx.po = (applyClientHints env conf req.header st).po := by
  unfold parsePath at h
  split at h
  · cases h
  · next po hpo =>
    split at h
    · cases h
    · cases h
      unfold resolveOptions at hpo
      split at hpo
      · cases hpo
      · next st hst =>
        obtain ⟨st1, st2, st3, a1, a2, a3, a4⟩ := resolveExplicit_stages env conf req st hst
        exact ⟨st1, st2, st3, st, a1, a2, a3, a4, (Except.ok.inj hpo).symm⟩

/-! ## Evaluation of the sample requests -/

theorem parseDecimal_02 : parseDecimal "0.2" = some (1 / 5) := by
  simp [parseDecimal, parseNat, digitsValue, List.span, List.span.loop]
  norm_num

theorem blur_02 (po : processingOptions) :
    applyBlurOption sampleEnv po ["0.2"] = .ok { po with Blur := 1 / 5 } := by
  simp [applyBlurOption, sampleEnv, parseDecimal_02]

theorem defaultState_eq :
    applyDefaultPreset sampleEnv defaultConf (State.init defaultConf qualityRequest.header) =
      .ok defaultState := by
  simp [defaultConf, testConf, qualityRequest, hintRequest, applyDefaultPreset, List.lookup,
    applyURLOptions, expand, expandNames, expandPreset, expandOptions, applyEach,
    applyURLOption, optionField, setField, applyResizingTypeOption, blur_02, applyQualityOption,
    resizeTypes, parseNat, digitsValue, State.write, State.init, seedOptions,
    defaultProcessingOptions, Source.rank, defaultState]
  refine ⟨by norm_num, ?_⟩
  funext g
  cases g <;> rfl

theorem qualityContext_eq :
    parsePath sampleEnv defaultConf qualityRequest = .ok qualityContext := by
  simp [parsePath, resolveOptions, resolveExplicit, resolvePath, verify, defaultConf, testConf,
    qualityRequest, hintRequest, applyDefaultPreset, List.lookup, applyExtension,
    applyPathOptions, applyURLOptions, expand, expandNames, expandPreset, expandOptions,
    applyEach, applyURLOption, optionField, setField, applyResizingTypeOption, blur_02,
    applyQualityOption, resizeTypes, parseNat, digitsValue, applyClientHints, resolveURL,
    State.write, State.init, seedOptions, Except.map, defaultProcessingOptions, Source.rank,
    qualityContext]
  norm_num

theorem loopRequest_used :
    (parsePath sampleEnv presetConf loopRequest).map
      (fun ctx => (getProcessingOptions ctx).UsedPresets) = .ok ["test1", "test2"] := by
  simp [parsePath, resolveOptions, resolveExplicit, resolvePath, verify, presetConf, testConf,
    loopRequest, hintRequest, applyDefaultPreset, List.lookup, applyExtension,
    applyPathOptions, applyURLOptions, expand, expandNames, expandPreset, expandOptions,
    applyEach, applyURLOption, optionField, setField, applyResizingTypeOption, blur_02,
    applyQualityOption, resizeTypes, parseNat, digitsValue, applyClientHints, resolveURL,
    State.write, State.init, seedOptions, Except.map, defaultProcessingOptions, Source.rank,
    getProcessingOptions]

/-! ## Lemmas on the legacy and the advanced form of a path -/

/-- C8: base64 round trip.  For every source URL `u`, with or without a query
string of its own, a request whose path carries the unpadded base64url
encoding of `u` and whose options resolve is parsed successfully, and
`getImageURL` returns the configured base URL followed by `u`: exactly `u`
when no base URL is configured.  The request's own query string acts on the
options only, and decoding the encoding of `u` always yields `u`. -/
theorem parsePath_base64_round_trip (env : Env) (conf : Config) (req : Request)
    (u : List Byte) (po : processingOptions)
    (hsrc : req.source = .encoded (EncodeToString u))
    (hopt : resolveOptions env conf req = .ok po) :
    DecodeString (EncodeToString u) = some u ∧
    ∃ ctx, parsePath env conf req = .ok ctx ∧
      getImageURL ctx = conf.BaseURL ++ u ∧
      (conf.BaseURL = [] → getImageURL ctx = u) ∧
      getProcessingOptions ctx = po := by
  refine ⟨DecodeString_EncodeToString u, { imageURL := conf.BaseURL ++ u, po := po }, ?_,
    rfl, fun h => by simp [getImageURL, h], rfl⟩
  unfold parsePath
  rw [hopt, hsrc]
  simp only [resolveURL, DecodeString_EncodeToString]

/-- C8, on the request of `TestParseBase64URLWithBase`: the base URL
`http://images.dev/`, the encoded form of `lorem/ipsum.jpg?param=value` and the
outer query string `w=100&h=100`. -/
theorem parsePath_base64_round_trip_witness :
    DecodeString (EncodeToString relativeImageURL) = some relativeImageURL ∧
    ∃ ctx, parsePath sampleEnv baseConf base64BaseRequest = .ok ctx ∧
      getImageURL ctx = baseConf.BaseURL ++ relativeImageURL ∧
      (baseConf.BaseURL = [] → getImageURL ctx = relativeImageURL) ∧
      getProcessingOptions ctx = { defaultProcessingOptions with Width := 100, Height := 100 } :=
  parsePath_base64_round_trip sampleEnv baseConf base64BaseRequest relativeImageURL
    { defaultProcessingOptions with Width := 100, Height := 100 } rfl rfl

/-- C10: client hints never override an explicit value.  Let the explicit
resolution of a request (path and query) end in the state `st`.  The finished
`Width` is the explicit one whenever any source has set the width, and
likewise `Dpr`.  With client hints disabled the headers are ignored: the
finished options are those of `st`, in which a width that no source has set
is 0 and a `Dpr` that no source has set is 1.0.  With client hints enabled and
no width set, `Width` is the value of the `Width` header, or of the
`Viewport-Width` header when there is no `Width` header. -/
theorem client_hints_keep_explicit (env : Env) (conf : Config) (req : Request) (st : State)
    (hst : resolveExplicit env conf req = .ok st) :
    ∃ po, resolveOptions env conf req = .ok po ∧
      (st.setBy .width ≠ .unset → po.Width = st.po.Width) ∧
      (st.setBy .dpr ≠ .unset → po.Dpr = st.po.Dpr) ∧
      (conf.EnableClientHints = false → po = st.po) ∧
      (st.setBy .width = .unset → st.po.Width = 0) ∧
      (st.setBy .dpr = .unset → st.po.Dpr = 1) ∧
      (conf.EnableClientHints = true → st.setBy .width = .unset →
        ∀ v n, parseNat v = some n →
          (headerGet req.header "Width" = some v → po.Width = n) ∧
          (headerGet req.header "Width" = none →
            headerGet req.header "Viewport-Width" = some v → po.Width = n)) := by
  refine ⟨(applyClientHints env conf req.header st).po, by rw [resolveOptions, hst],
    fun hw => ?_, fun hd => ?_, fun hoff => ?_, (resolveExplicit_Fresh env conf req st hst).1,
    (resolveExplicit_Fresh env conf req st hst).2,
    fun hon hw v n hn => ⟨fun h1 => ?_, fun h1 h2 => ?_⟩⟩
  · unfold applyClientHints
    split
    · rw [hintWidth_of_set st _ hw, hintWidth_of_set _ _ (by rw [(hintDpr_width env st _).2]; exact hw)]
      exact (hintDpr_width env st _).1
    · rfl
  · unfold applyClientHints
    split
    · rw [(hintWidth_dpr _ _).1,
        hintDpr_of_set env _ _ (by rw [(hintWidth_dpr st _).2]; exact hd)]
      exact (hintWidth_dpr st _).1
    · rfl
  · simp only [applyClientHints, hoff, Bool.false_eq_true, if_false]
  · simp only [applyClientHints, hon, if_true, h1]
    rw [hintWidth_of_unset st v n hw hn, hintWidth_of_set _ _ (by
      rw [(hintDpr_width env _ _).2, State.write_setBy]; simp)]
    exact (hintDpr_width env _ _).1
  · simp only [applyClientHints, hon, if_true, h1, h2]
    have h3 : hintWidth st none = st := rfl
    rw [h3, hintWidth_of_unset _ v n (by rw [(hintDpr_width env st _).2]; exact hw) hn]
    rfl

/-- C10, on the request of `TestParsePathWidthHeaderRedefine`: client hints
enabled, the query parameter `width=150` and the header `Width: 100` resolve
to the width 150. -/
theorem client_hints_keep_explicit_witness :
    resolveExplicit sampleEnv hintsConf redefineRequest = .ok redefineState ∧
    ∃ po, resolveOptions sampleEnv hintsConf redefineRequest = .ok po ∧ po.Width = 150 :=
  ⟨rfl, (client_hints_keep_explicit sampleEnv hintsConf redefineRequest redefineState rfl).imp
    fun _ h => ⟨h.1, h.2.1 (by decide)⟩⟩

/-- C12: the `background` instruction.  With no argument or one empty argument
it sets `Flatten` to false whatever the options were before; with one argument
of six hexadecimal digits it sets `Background` to the values of the three
pairs and `Flatten` to true; with three decimal arguments from 0 to 255 it
sets `Background` to them and `Flatten` to true.  In a request,
`background=ffddee` gives R = 0xff, G = 0xdd, B = 0xee, `background=128:129:130`
gives R = 128, G = 129, B = 130, both with `Flatten`, and an empty `background=`
after `background=ffddee` leaves `Flatten` false. -/
theorem background_option :
    (optionField "background" = some .background ∧ optionField "bg" = some .background) ∧
    (∀ po : processingOptions,
      applyBackgroundOption po [] = .ok { po with Flatten := false } ∧
      applyBackgroundOption po [""] = .ok { po with Flatten := false }) ∧
    (∀ (po : processingOptions) (r1 r2 g1 g2 b1 b2 : Char) (r g b : Nat),
      hexPair r1 r2 = some r → hexPair g1 g2 = some g → hexPair b1 b2 = some b →
      applyBackgroundOption po [String.mk [r1, r2, g1, g2, b1, b2]] =
        .ok { po with Flatten := true, Background := { R := r, G := g, B := b } }) ∧
    (∀ (po : processingOptions) (sr sg sb : String) (r g b : Nat),
      parseNat sr = some r → parseNat sg = some g → parseNat sb = some b →
      r ≤ 255 → g ≤ 255 → b ≤ 255 →
      applyBackgroundOption po [sr, sg, sb] =
        .ok { po with Flatten := true, Background := { R := r, G := g, B := b } }) ∧
    (parsePath sampleEnv testConf
        (hintRequest [{ Name := "background", Args := ["ffddee"] }] [])).map
      (fun ctx => ((getProcessingOptions ctx).Flatten, (getProcessingOptions ctx).Background)) =
        .ok (true, { R := 0xff, G := 0xdd, B := 0xee }) ∧
    (parsePath sampleEnv testConf
        (hintRequest [{ Name := "background", Args := ["128", "129", "130"] }] [])).map
      (fun ctx => ((getProcessingOptions ctx).Flatten, (getProcessingOptions ctx).Background)) =
        .ok (true, { R := 128, G := 129, B := 130 }) ∧
    (parsePath sampleEnv testConf
        (hintRequest [{ Name := "background", Args := ["ffddee"] },
                      { Name := "background", Args := [""] }] [])).map
      (fun ctx => (getProcessingOptions ctx).Flatten) = .ok false := by
  refine ⟨⟨by decide, by decide⟩, fun po => ⟨rfl, rfl⟩, ?_, ?_, rfl, rfl, rfl⟩
  · intro po r1 r2 g1 g2 b1 b2 r g b hr hg hb
    have hl : (String.mk [r1, r2, g1, g2, b1, b2]).toList = [r1, r2, g1, g2, b1, b2] := rfl
    simp only [applyBackgroundOption, hl, hr, hg, hb]
  · intro po sr sg sb r g b hr hg hb h1 h2 h3
    simp only [applyBackgroundOption, hr, hg, hb, h1, h2, h3, and_self, if_true]

/-- C11: the preset loop guard.  For every preset table and every list of
names, whatever names the list and the nested chains of the table reach more
than once, the expansion ends within the recursion budget of the model: it
succeeds, or it stops at a name that does not resolve (one that is not in the
table while unknown presets are not ignored).  Reaching a name again is never
an error.  Let `S` be any set of names that holds the requested names and
every name that the preset of a name of `S` refers to, names already used
aside.  If every name of `S` resolves, the expansion succeeds: the used names
it returns extend the used names it was given by names of `S`, they hold
every requested name, and they hold no name twice if those given did not.
The condition on `S` is the weakest one: after any successful expansion,
every name added resolves and every name its preset refers to is among the
used names.  And whenever `parsePath` succeeds, `UsedPresets` holds no name
twice. -/
theorem preset_loop_guard (conf : Config) (names used S : List String)
    (hnames : ∀ n ∈ names, n ∈ S ∨ n ∈ used) (hclosed : RefClosed conf used S)
    (hknown : ∀ n ∈ S, Known conf n) (hused : used.Nodup) :
    (∃ flat used1, expand conf names used = .ok (flat, used1) ∧
      used1.Nodup ∧ used <+: used1 ∧ (∀ n ∈ names, n ∈ used1) ∧
      (∀ n ∈ used1, n ∈ used ∨ n ∈ S) ∧ ∀ o ∈ flat, o.Name ≠ "preset") ∧
    (∀ names1 used0 : List String,
      (∃ flat used1, expand conf names1 used0 = .ok (flat, used1)) ∨
      (∃ m, ¬ Known conf m ∧ expand conf names1 used0 = .error (.unknownPreset m))) ∧
    (∀ (names1 used0 : List String) (flat : urlOptions) (used1 : List String),
      expand conf names1 used0 = .ok (flat, used1) → Added conf used0 used1) ∧
    (∀ (env : Env) (req : Request) (ctx : Context), parsePath env conf req = .ok ctx →
      (getProcessingOptions ctx).UsedPresets.Nodup) := by
  refine ⟨?_, expand_total conf, expand_added conf,
    fun env req ctx h => parsePath_Nodup env conf req ctx h⟩
  rcases expand_ends conf S names used hnames hclosed with
    ⟨flat, used1, h, hs⟩ | ⟨m, hm, hk, -⟩
  · obtain ⟨p, m, d, f⟩ := expand_part conf names used flat used1 h
    exact ⟨flat, used1, h, d hused, p, m, hs, f⟩
  · exact absurd (hknown m hm) hk

/-- C11, on the nested chain `test1` to `test2` to `test1` and the requested
names `test1:test2:test1`; the chain alone, requested as `test1`, expands to
the used names `test1`, `test2`; the request `test1:test2:test1` expands to
the same used names on the table of
`TestParsePathAdvancedPresetLoopDetection`, and `parsePath` returns them as
`UsedPresets` on both tables.  On a table with a preset that is not reached
and refers to a name that is not configured, the expansion of the other
preset succeeds as well; the expansion that reaches the name stops at it. -/
theorem preset_loop_guard_witness :
    ((∃ flat used1, expand loopConf ["test1", "test2", "test1"] [] = .ok (flat, used1) ∧
        used1.Nodup ∧ [] <+: used1 ∧ (∀ n ∈ ["test1", "test2", "test1"], n ∈ used1) ∧
        (∀ n ∈ used1, n ∈ [] ∨ n ∈ ["test1", "test2"]) ∧
        ∀ o ∈ flat, o.Name ≠ "preset") ∧
      (∀ names1 used0 : List String,
        (∃ flat used1, expand loopConf names1 used0 = .ok (flat, used1)) ∨
        (∃ m, ¬ Known loopConf m ∧
          expand loopConf names1 used0 = .error (.unknownPreset m))) ∧
      (∀ (names1 used0 : List String) (flat : urlOptions) (used1 : List String),
        expand loopConf names1 used0 = .ok (flat, used1) → Added loopConf used0 used1) ∧
      (∀ (env : Env) (req : Request) (ctx : Context), parsePath env loopConf req = .ok ctx →
        (getProcessingOptions ctx).UsedPresets.Nodup)) ∧
    expand loopConf ["test1", "test2", "test1"] [] =
      .ok ([{ Name := "resizing_type", Args := ["fill"] },
            { Name := "quality", Args := ["50"] }], ["test1", "test2"]) ∧
    expand presetConf ["test1", "test2", "test1"] [] =
      .ok ([{ Name := "resizing_type", Args := ["fill"] }, { Name := "blur", Args := ["0.2"] },
            { Name := "quality", Args := ["50"] }], ["test1", "test2"]) ∧
    expand loopConf ["test1"] [] =
      .ok ([{ Name := "resizing_type", Args := ["fill"] },
            { Name := "quality", Args := ["50"] }], ["test1", "test2"]) ∧
    expand danglingConf ["test1"] [] =
      .ok ([{ Name := "resizing_type", Args := ["fill"] }], ["test1"]) ∧
    expand danglingConf ["test1", "test2"] [] = .error (.unknownPreset "test3") ∧
    (parsePath sampleEnv loopConf loopRequest).map
      (fun ctx => (getProcessingOptions ctx).UsedPresets) = .ok ["test1", "test2"] ∧
    (parsePath sampleEnv presetConf loopRequest).map
      (fun ctx => (getProcessingOptions ctx).UsedPresets) = .ok ["test1", "test2"] :=
  ⟨preset_loop_guard loopConf ["test1", "test2", "test1"] [] ["test1", "test2"]
      (by decide) (RefClosed_of_entries loopConf [] ["test1", "test2"] (by decide))
      (by decide) List.nodup_nil,
    rfl, rfl, rfl, rfl, rfl, rfl, loopRequest_used⟩

/-- C13, as the model has it: the `default` preset has the lowest precedence.
Let `parsePath` succeed on a request, and let `st1` be the state after the
stage of the `default` preset, which starts from the seeded options.  If the
preset is configured, that stage is its expansion and `default` is among the
used names, of `st1` and of the result.  The stage leaves every field group
unset or set by a preset, and the request is resolved from `st1` on: the
extension of the source URL, the instructions of the path, the query
parameters, the header overlay.  Every field group that an instruction of the
request targets (an instruction of the path or a query parameter that is no
`preset` instruction, presets-only mode being off) ends with a value that an
instruction of the request wrote.  Every field group that the `default`
preset set and that neither an instruction of the request nor the expansion
of a preset it asks for targets ends with the value of `st1`. -/
theorem default_preset_lowest (env : Env) (conf : Config) (req : Request) (st1 : State)
    (ctx : Context)
    (h1 : applyDefaultPreset env conf (State.init conf req.header) = .ok st1)
    (h : parsePath env conf req = .ok ctx) :
    ((conf.Presets.lookup "default").isSome →
      applyURLOptions env conf .preset (State.init conf req.header)
          [{ Name := "preset", Args := ["default"] }] = .ok st1 ∧
        "default" ∈ st1.po.UsedPresets ∧
        "default" ∈ (getProcessingOptions ctx).UsedPresets) ∧
    (∀ f, st1.setBy f = .unset ∨ st1.setBy f = .preset) ∧
    (∃ st2 st3 st, applyExtension env st1 req.source = .ok st2 ∧
      applyURLOptions env conf req.options.src st2 req.options.list = .ok st3 ∧
      applyURLOptions env conf .query st3 req.query = .ok st ∧
      getProcessingOptions ctx = (applyClientHints env conf req.header st).po) ∧
    (conf.OnlyPresets = false →
      ∀ o ∈ req.options.list ++ req.query, o.Name ≠ "preset" →
        ∀ f, optionField o.Name = some f →
          SetByRequest env (req.options.list ++ req.query) f (getProcessingOptions ctx)) ∧
    (∀ f, st1.setBy f = .preset → Untouched conf f (req.options.list ++ req.query) →
      fieldView f (getProcessingOptions ctx) = fieldView f st1.po) := by
  obtain ⟨st0, st2, st3, st, a1, a2, a3, a4, a5⟩ := parsePath_stages env conf req ctx h
  rw [h1] at a1
  cases a1
  obtain ⟨hsrc, hconf⟩ := applyDefaultPreset_setBy env conf req.header st1 h1
  have hlow : ∀ f, (st1.setBy f).rank f ≤ 2 := by
    intro f
    rcases hsrc f with e | e <;> rw [e]
    · exact (show 0 ≤ 2 by decide)
    · exact (show 2 ≤ 2 by decide)
  have u2 : st2.po.UsedPresets = st1.po.UsedPresets :=
    (applyExtension_frame env st1 st2 req.source .resize a2).2.2
  have p3 := (applyURLOptions_UsedPresets env conf _ _ st2 st3 a3).1
  have p4 := (applyURLOptions_UsedPresets env conf _ _ st3 st a4).1
  refine ⟨fun hd => ?_, hsrc, ⟨st2, st3, st, a2, a3, a4, a5⟩, ?_, ?_⟩
  · have hu := applyDefaultPreset_used env conf _ st1 h1 hd
    refine ⟨?_, hu, ?_⟩
    · unfold applyDefaultPreset at h1
      split at h1
      · next hl => rw [hl] at hd; cases hd
      · exact h1
    · show "default" ∈ ctx.po.UsedPresets
      rw [a5, applyClientHints_UsedPresets]
      exact p4.subset (p3.subset (by rw [u2]; exact hu))
  · intro hno o ho hname f hf
    have e2 : Explicit env (req.options.list ++ req.query) f st2 := by
      intro h3
      have := (applyExtension_frame env st1 st2 req.source f a2).2.1
      have := hlow f
      omega
    have e3 := applyURLOptions_explicit env conf _ (req.options.list ++ req.query) f _ st2 st3
      (fun x hx => List.mem_append_left _ hx) a3 e2
    have e4 := applyURLOptions_explicit env conf _ (req.options.list ++ req.query) f _ st3 st
      (fun x hx => List.mem_append_right _ hx) a4 e3
    have hr : 3 ≤ (st.setBy f).rank f := by
      rcases List.mem_append.1 ho with hm | hm
      · have r3 := applyURLOptions_rank_target env conf _ hno o f hname hf _ st2 st3 hm a3
        have r4 := applyURLOptions_rank env conf _ _ st3 st a4 f
        have := Source.rank_request req.options f
        omega
      · have r4 := applyURLOptions_rank_target env conf .query hno o f hname hf _ st3 st hm a4
        have : Source.rank .query f = 4 := rfl
        omega
    obtain ⟨o1, m1, n1, f1, po0, po1, s1, v1⟩ := e4 hr
    refine ⟨o1, m1, n1, f1, po0, po1, s1, ?_⟩
    show fieldView f ctx.po = fieldView f po1
    rw [a5, applyClientHints_frame env conf req.header st f (Source.rank_unset _ f hr)]
    exact v1
  · intro f hf hu
    obtain ⟨hu1, hu2⟩ := Untouched_append conf f _ _ hu
    have hd1 : "default" ∈ st1.po.UsedPresets :=
      applyDefaultPreset_used env conf _ st1 h1 (hconf f hf)
    obtain ⟨b1, b2⟩ := (applyExtension_frame env st1 st2 req.source f a2).1
      (by rw [hf]; exact (show 2 ≤ 2 by decide))
    obtain ⟨c1, c2⟩ := applyURLOptions_frame env conf _ f _ st2 st3 a3
      (by rw [u2]; exact hd1) hu1
    obtain ⟨d1, d2⟩ := applyURLOptions_frame env conf _ f _ st3 st a4
      (p3.subset (by rw [u2]; exact hd1)) hu2
    show fieldView f ctx.po = fieldView f st1.po
    rw [a5, applyClientHints_frame env conf req.header st f
      (by rw [d2, c2, b2, hf]; exact Source.noConfusion)]
    exact d1.trans (c1.trans b1)

/-- C13, on `TestParsePathPresetDefault`: with the preset `default` of
`resizing_type fill`, `blur 0.2`, `quality 50` and the request `quality=70`, the
stage of the preset ends in `defaultState`, `parsePath` returns
`qualityContext`, and the result has `Resize = fill`, `Blur = 0.2`,
`Quality = 70`. -/
theorem default_preset_lowest_witness :
    (applyDefaultPreset sampleEnv defaultConf (State.init defaultConf qualityRequest.header) =
        .ok defaultState ∧
      parsePath sampleEnv defaultConf qualityRequest = .ok qualityContext) ∧
    (((defaultConf.Presets.lookup "default").isSome →
        applyURLOptions sampleEnv defaultConf .preset
            (State.init defaultConf qualityRequest.header)
            [{ Name := "preset", Args := ["default"] }] = .ok defaultState ∧
          "default" ∈ defaultState.po.UsedPresets ∧
          "default" ∈ (getProcessingOptions qualityContext).UsedPresets) ∧
      (∀ f, defaultState.setBy f = .unset ∨ defaultState.setBy f = .preset) ∧
      (∃ st2 st3 st, applyExtension sampleEnv defaultState qualityRequest.source = .ok st2 ∧
        applyURLOptions sampleEnv defaultConf qualityRequest.options.src st2
            qualityRequest.options.list = .ok st3 ∧
        applyURLOptions sampleEnv defaultConf .query st3 qualityRequest.query = .ok st ∧
        getProcessingOptions qualityContext =
          (applyClientHints sampleEnv defaultConf qualityRequest.header st).po) ∧
      (defaultConf.OnlyPresets = false →
        ∀ o ∈ qualityRequest.options.list ++ qualityRequest.query, o.Name ≠ "preset" →
          ∀ f, optionField o.Name = some f →
            SetByRequest sampleEnv (qualityRequest.options.list ++ qualityRequest.query) f
              (getProcessingOptions qualityContext)) ∧
      (∀ f, defaultState.setBy f = .preset →
        Untouched defaultConf f (qualityRequest.options.list ++ qualityRequest.query) →
        fieldView f (getProcessingOptions qualityContext) = fieldView f defaultState.po)) ∧
    (getProcessingOptions qualityContext).Resize = .resizeFill ∧
    (getProcessingOptions qualityContext).Blur = 0.2 ∧
    (getProcessingOptions qualityContext).Quality = 70 :=
  ⟨⟨defaultState_eq, qualityContext_eq⟩,
    default_preset_lowest sampleEnv defaultConf qualityRequest defaultState qualityContext
      defaultState_eq qualityContext_eq,
    rfl, rfl, rfl⟩

end Imgproxy
